import Mathlib

/-!
Verification development for the endpoint-discovery pipeline:
the resolution driver (`discover.rs`) and the discovery buffer daemon
(`buffer.rs`).

The Rust code is shallowly embedded as executable Lean functions.
Asynchronous collaborators (the resolve future, the resolution stream,
the backoff timer, the endpoint maker's readiness and its build futures,
and, for the buffer, the disconnect channel, the bounded change channel
and the inner driver) are modelled as explicit scripts: lists of poll
results consumed one per poll.  Polling loops take a fuel parameter;
running out of fuel is a distinguished outcome, never identified with a
real result.  `IndexMap::remove` is modelled with its actual
swap-remove semantics (the last entry is swapped into the hole).
-/

namespace Linkerd

/-- Socket addresses, abstracted to their identity. -/
abbrev Addr := Nat

/-- Endpoint metadata values. -/
abbrev Ep := Nat

/-- Built services, abstracted to their identity. -/
abbrev Svc := Nat

/-- `resolve::Update` from `linkerd2-proxy-core`. -/
inductive Update where
  | add (endpoints : List (Addr × Ep))
  | remove (addrs : List Addr)
  | empty
  | doesNotExist
deriving DecidableEq

/-- `tower::discover::Change`, the output alphabet to the consumer. -/
inductive Chg where
  | insert (a : Addr) (v : Svc)
  | remove (a : Addr)
deriving DecidableEq

/-! ### Association-list operations mirroring `indexmap::IndexMap` -/

/-- `IndexMap::get` on an insertion-ordered association list. -/
def lookupKey {β : Type} : List (Nat × β) → Nat → Option β
  | [], _ => none
  | p :: rest, k => if p.1 = k then some p.2 else lookupKey rest k

/-- `IndexMap::insert` for a key that may be present: an existing entry
keeps its position and gets the new value; a fresh key is appended. -/
def replaceKey {β : Type} : List (Nat × β) → Nat → β → List (Nat × β)
  | [], k, v => [(k, v)]
  | p :: rest, k, v => if p.1 = k then (k, v) :: rest else p :: replaceKey rest k v

/-- `IndexMap::remove` (= `swap_remove`): the first entry with the key is
replaced by the last entry of the map and the last slot is dropped. -/
def swapRemoveKey {β : Type} : List (Nat × β) → Nat → List (Nat × β)
  | [], _ => []
  | p :: rest, k =>
    if p.1 = k then
      match rest.getLast? with
      | none => []
      | some q => q :: rest.dropLast
    else
      p :: swapRemoveKey rest k

/-- Iterated `swap_remove`, as done by the reconcile loop
`for (addr, _) in endpoints.iter() { self.active_endpoints.remove(addr); }`. -/
def removeKeys {β : Type} (l : List (Nat × β)) (ks : List Nat) : List (Nat × β) :=
  ks.foldl swapRemoveKey l

/-- `Vec::pop`: returns the last element and the remaining front. -/
def popBack {α : Type} : List α → Option (α × List α)
  | [] => none
  | a :: as =>
    match popBack as with
    | none => some (a, [])
    | some (b, rest) => some (b, a :: rest)

/-- Keys of an association list are pairwise distinct (an `IndexMap`
invariant). -/
def keysNodup {β : Type} (l : List (Nat × β)) : Prop :=
  (l.map Prod.fst).Nodup

/-! ### The make-futures set (`MakeFutures` / `MakeFuture`) -/

/-- One scripted poll result of an endpoint-build future (`M::Future`). -/
inductive BPoll where
  | ready (v : Svc)
  | notReady
  | err
deriving DecidableEq

/-- A `MakeFuture` in the `FuturesUnordered` set: the target address, the
identity of its `oneshot` cancellation channel, whether the cancellation
signal has been fired, and the script of the inner build future. -/
structure Slot where
  addr : Addr
  chan : Nat
  canceled : Bool
  inner : List BPoll
deriving DecidableEq

/-- `MakeFutures`: the future set plus the addr → cancellation-sender map.
`nextId` generates fresh channel identities. -/
structure MakeFuts where
  futures : List Slot
  cancelations : List (Addr × Nat)
  nextId : Nat
deriving DecidableEq

def MakeFuts.empty : MakeFuts := ⟨[], [], 0⟩

/-- Firing a cancellation sender: the slot holding the matching receiver
(if it is still in the set) observes the signal. -/
def fireChan (fs : List Slot) (id : Nat) : List Slot :=
  fs.map fun s => if s.chan = id then { s with canceled := true } else s

/-- `MakeFutures::push`: allocate a fresh oneshot channel, insert its
sender into `cancelations` (firing any prior sender for the address) and
push the new `MakeFuture` onto the set. -/
def MakeFuts.push (m : MakeFuts) (a : Addr) (fut : List BPoll) : MakeFuts :=
  let id := m.nextId
  match lookupKey m.cancelations a with
  | some prior =>
    { futures := fireChan m.futures prior ++ [⟨a, id, false, fut⟩],
      cancelations := replaceKey m.cancelations a id,
      nextId := id + 1 }
  | none =>
    { futures := m.futures ++ [⟨a, id, false, fut⟩],
      cancelations := m.cancelations ++ [(a, id)],
      nextId := id + 1 }

/-- `MakeFutures::remove`: fire and forget the cancellation sender for the
address, if present.  The future itself stays in the set until reaped. -/
def MakeFuts.remove (m : MakeFuts) (a : Addr) : MakeFuts :=
  match lookupKey m.cancelations a with
  | some id =>
    { m with cancelations := swapRemoveKey m.cancelations a,
             futures := fireChan m.futures id }
  | none => m

/-- Outcome of `MakeFuture::poll`. -/
inductive MakeFutureOut where
  | done (a : Addr) (v : Svc)
  | cancelErr
  | innerErr
  | pend
deriving DecidableEq

/-- `Future::poll for MakeFuture`: the cancellation receiver is polled
first; only if it has not fired is the inner build future polled. -/
def MakeFuture.pollOne (s : Slot) : MakeFutureOut × Slot :=
  if s.canceled then (MakeFutureOut.cancelErr, s)
  else
    match s.inner with
    | [] => (MakeFutureOut.pend, s)
    | BPoll.ready v :: _ => (MakeFutureOut.done s.addr v, s)
    | BPoll.notReady :: t => (MakeFutureOut.pend, { s with inner := t })
    | BPoll.err :: t => (MakeFutureOut.innerErr, { s with inner := t })

/-- Outcome of `Stream::poll for MakeFutures`. -/
inductive MfOut where
  | yielded (a : Addr) (v : Svc)
  | errOut
  | notReady
deriving DecidableEq

/-- The `FuturesUnordered` scan: slots are polled in order; a slot whose
cancellation fired resolves `Canceled` and is silently dropped (the outer
loop `continue`s); the first completed build is yielded; a build error is
fatal.  `acc` holds already-polled, still-pending slots. -/
def pollSlots : List Slot → List Slot → MfOut × List Slot
  | acc, [] => (MfOut.notReady, acc)
  | acc, s :: rest =>
    match MakeFuture.pollOne s with
    | (MakeFutureOut.cancelErr, _) => pollSlots acc rest
    | (MakeFutureOut.done a v, _) => (MfOut.yielded a v, acc ++ rest)
    | (MakeFutureOut.innerErr, _) => (MfOut.errOut, acc ++ rest)
    | (MakeFutureOut.pend, s') => pollSlots (acc ++ [s']) rest

/-- `Stream::poll for MakeFutures`: on a successful completion the
cancellation entry for the address is removed together with emission. -/
def MakeFuts.pollStream (m : MakeFuts) : MfOut × MakeFuts :=
  match pollSlots [] m.futures with
  | (MfOut.yielded a v, fs) =>
    (MfOut.yielded a v,
     { m with futures := fs, cancelations := swapRemoveKey m.cancelations a })
  | (o, fs) => (o, { m with futures := fs })

/-! ### The resolution driver state machine (`Discover`) -/

/-- The driver's `State` enum.  The resolution handle carried by
`Connected`, `Reconcile` and `Resolving` is left implicit: its poll
results come from the `resEvs` script, and the `Option`-`take` dance of
the source (whose `None` case is an `expect`-guarded impossibility) is
elided. -/
inductive RState where
  | disconnected
  | connecting
  | connected
  | reconcile (u : Option Update)
  | resolving
  | failed
  | backoff
deriving DecidableEq

/-- Scripted poll result of the `resolve` future (`Connecting`). -/
inductive ConnEv where
  | ready
  | notReady
  | err
deriving DecidableEq

/-- Scripted poll result of the resolution stream. -/
inductive ResEv where
  | ready (u : Update)
  | notReady
  | err
deriving DecidableEq

/-- Scripted poll result of the backoff timer (which must not fail). -/
inductive TimerEv where
  | fired
  | notReady
deriving DecidableEq

/-- Scripted result of `make_endpoint.poll_ready()`. -/
inductive RdyEv where
  | ready
  | notReady
  | err
deriving DecidableEq

/-- The driver (`Discover` struct) together with its scripted
environment and effect counters for the backoff policy (`resets` counts
`reset_delay()` calls, `delays` counts `next_delay()` calls). -/
structure Discover where
  state : RState
  activeEndpoints : List (Addr × Ep)
  pendingRemovals : List Addr
  makeFutures : MakeFuts
  connEvs : List ConnEv
  resEvs : List ResEv
  timerEvs : List TimerEv
  readyEvs : List RdyEv
  callFuts : List (List BPoll)
  resets : Nat
  delays : Nat
deriving DecidableEq

/-- Result of `Discover::poll_resolution` (its error type is `Never`). -/
inductive ResPoll where
  | ready (u : Update)
  | notReady
  | fuelOut
deriving DecidableEq

/-- One iteration of the `loop` in `Discover::poll_resolution`:
`some r` means the function returns `r`; `none` means the loop continues
in the updated state. -/
def resIter (d : Discover) : Option ResPoll × Discover :=
  match d.state with
  | RState.disconnected => (none, { d with state := RState.connecting })
  | RState.connecting =>
    match d.connEvs with
    | [] => (some ResPoll.notReady, d)
    | ConnEv.notReady :: t => (some ResPoll.notReady, { d with connEvs := t })
    | ConnEv.ready :: t => (none, { d with state := RState.connected, connEvs := t })
    | ConnEv.err :: t => (none, { d with state := RState.failed, connEvs := t })
  | RState.connected =>
    if d.activeEndpoints = [] then
      (none, { d with state := RState.resolving, resets := d.resets + 1 })
    else
      match d.resEvs with
      | [] => (some ResPoll.notReady, d)
      | ResEv.notReady :: t => (some ResPoll.notReady, { d with resEvs := t })
      | ResEv.ready u :: t =>
        (none, { d with state := RState.reconcile (some u), resEvs := t })
      | ResEv.err :: t => (none, { d with state := RState.failed, resEvs := t })
  | RState.reconcile none =>
    (none, { d with state := RState.resolving, resets := d.resets + 1 })
  | RState.reconcile (some (Update.add eps)) =>
    if d.activeEndpoints = [] then
      (some (ResPoll.ready (Update.add eps)), { d with state := RState.reconcile none })
    else
      (some (ResPoll.ready (Update.remove
          ((removeKeys d.activeEndpoints (eps.map Prod.fst)).map Prod.fst))),
       { d with state := RState.reconcile (some (Update.add eps)),
                activeEndpoints := [] })
  | RState.reconcile (some (Update.remove addrs)) =>
    (some (ResPoll.ready (Update.remove (addrs ++ d.activeEndpoints.map Prod.fst))),
     { d with state := RState.reconcile none, activeEndpoints := [] })
  | RState.reconcile (some u) =>
    if d.activeEndpoints = [] then
      (some (ResPoll.ready u), { d with state := RState.reconcile none })
    else
      (some (ResPoll.ready (Update.remove (d.activeEndpoints.map Prod.fst))),
       { d with state := RState.reconcile (some u), activeEndpoints := [] })
  | RState.resolving =>
    match d.resEvs with
    | [] => (some ResPoll.notReady, d)
    | ResEv.notReady :: t => (some ResPoll.notReady, { d with resEvs := t })
    | ResEv.ready u :: t => (some (ResPoll.ready u), { d with resEvs := t })
    | ResEv.err :: t => (none, { d with state := RState.failed, resEvs := t })
  | RState.failed =>
    (none, { d with state := RState.backoff, delays := d.delays + 1 })
  | RState.backoff =>
    match d.timerEvs with
    | [] => (some ResPoll.notReady, d)
    | TimerEv.notReady :: t => (some ResPoll.notReady, { d with timerEvs := t })
    | TimerEv.fired :: t => (none, { d with state := RState.disconnected, timerEvs := t })

/-- `Discover::poll_resolution`: iterate `resIter` with fuel. -/
def pollResolution : Nat → Discover → ResPoll × Discover
  | 0, d => (ResPoll.fuelOut, d)
  | n + 1, d =>
    match resIter d with
    | (some r, d') => (r, d')
    | (none, d') => pollResolution n d'

/-- `make_endpoint.call(target)` followed by `make_futures.push`: the
next scripted build future is consumed. -/
def pushEndpoint (d : Discover) (p : Addr × Ep) : Discover :=
  match d.callFuts with
  | [] => { d with makeFutures := d.makeFutures.push p.1 [] }
  | f :: t => { d with makeFutures := d.makeFutures.push p.1 f, callFuts := t }

/-- Processing of `Update::Add`: build a service for each endpoint. -/
def pushAll (d : Discover) (eps : List (Addr × Ep)) : Discover :=
  eps.foldl pushEndpoint d

/-- Result of `Discover::poll_removals`.  `diverged` marks the
`unimplemented!()` panic reached for `Update::Empty | DoesNotExist`. -/
inductive RemPoll where
  | ready (a : Addr)
  | notReady
  | errOut
  | diverged
  | fuelOut
deriving DecidableEq

/-- `Discover::poll_removals`: drain one pending removal if any (firing
its build's cancellation); otherwise require the maker to be ready, then
pull the next resolution update and process it. -/
def pollRemovals : Nat → Discover → RemPoll × Discover
  | 0, d => (RemPoll.fuelOut, d)
  | n + 1, d =>
    match popBack d.pendingRemovals with
    | some (a, rest) =>
      (RemPoll.ready a,
       { d with pendingRemovals := rest, makeFutures := d.makeFutures.remove a })
    | none =>
      match d.readyEvs with
      | [] => (RemPoll.notReady, d)
      | RdyEv.notReady :: t => (RemPoll.notReady, { d with readyEvs := t })
      | RdyEv.err :: t => (RemPoll.errOut, { d with readyEvs := t })
      | RdyEv.ready :: t =>
        match pollResolution (n + 1) { d with readyEvs := t } with
        | (ResPoll.fuelOut, d2) => (RemPoll.fuelOut, d2)
        | (ResPoll.notReady, d2) => (RemPoll.notReady, d2)
        | (ResPoll.ready (Update.add eps), d2) => pollRemovals n (pushAll d2 eps)
        | (ResPoll.ready (Update.remove addrs), d2) =>
          pollRemovals n { d2 with pendingRemovals := d2.pendingRemovals ++ addrs }
        | (ResPoll.ready _, d2) => (RemPoll.diverged, d2)

/-- Result of `tower::discover::Discover::poll`. -/
inductive DPoll where
  | change (c : Chg)
  | notReady
  | errOut
  | diverged
  | fuelOut
deriving DecidableEq

/-- `tower::discover::Discover::poll for Discover`: removals first, then
completed builds. -/
def discoverPoll (n : Nat) (d : Discover) : DPoll × Discover :=
  match pollRemovals n d with
  | (RemPoll.ready a, d') => (DPoll.change (Chg.remove a), d')
  | (RemPoll.errOut, d') => (DPoll.errOut, d')
  | (RemPoll.diverged, d') => (DPoll.diverged, d')
  | (RemPoll.fuelOut, d') => (DPoll.fuelOut, d')
  | (RemPoll.notReady, d') =>
    match d'.makeFutures.pollStream with
    | (MfOut.yielded a v, mf') =>
      (DPoll.change (Chg.insert a v), { d' with makeFutures := mf' })
    | (MfOut.errOut, mf') => (DPoll.errOut, { d' with makeFutures := mf' })
    | (MfOut.notReady, mf') => (DPoll.notReady, { d' with makeFutures := mf' })

/-- The consumer's polling loop: keep polling the driver, collecting the
emitted changes, until a non-`change` outcome. -/
def runDriver : Nat → Discover → List Chg × Discover × DPoll
  | 0, d => ([], d, DPoll.fuelOut)
  | n + 1, d =>
    match discoverPoll (n + 1) d with
    | (DPoll.change c, d') =>
      let r := runDriver n d'
      (c :: r.1, r.2)
    | (o, d') => ([], d', o)

/-! ### Change-stream accounting -/

/-- Number of `Insert(a, _)` changes in a stream. -/
def insCount (a : Addr) : List Chg → Nat
  | [] => 0
  | Chg.insert b _ :: t => (if b = a then 1 else 0) + insCount a t
  | Chg.remove _ :: t => insCount a t

/-- Number of `Remove(a)` changes in a stream. -/
def remCount (a : Addr) : List Chg → Nat
  | [] => 0
  | Chg.insert _ _ :: t => remCount a t
  | Chg.remove b :: t => (if b = a then 1 else 0) + remCount a t

/-! ### Rounds: a well-behaved resolver with a synchronous maker -/

/-- One resolver update together with the build scripts it needs:
`addR` items are (address, endpoint, service) with builds that complete
immediately; `rmR` is a plain removal. -/
inductive Round where
  | addR (items : List (Addr × Ep × Svc))
  | rmR (addrs : List Addr)
deriving DecidableEq

def roundUpdate : Round → Update
  | Round.addR items => Update.add (items.map fun i => (i.1, i.2.1))
  | Round.rmR as => Update.remove as

def roundFuts : Round → List (List BPoll)
  | Round.addR items => items.map fun i => [BPoll.ready i.2.2]
  | Round.rmR _ => []

def roundSize : Round → Nat
  | Round.addR items => items.length
  | Round.rmR as => as.length

/-- Install one round's scripts into the driver's environment. -/
def setRound (d : Discover) (r : Round) : Discover :=
  { d with resEvs := [ResEv.ready (roundUpdate r)],
           readyEvs := [RdyEv.ready],
           callFuts := roundFuts r,
           connEvs := [], timerEvs := [] }

/-- Feed the rounds one by one, collecting everything the driver emits. -/
def runRounds : Discover → List Round → List Chg
  | _, [] => []
  | d, r :: rs =>
    let p := runDriver (roundSize r + 2) (setRound d r)
    p.1 ++ runRounds p.2.1 rs

/-- The change stream a single round produces. -/
def roundOut : Round → List Chg
  | Round.addR items => items.map fun i => Chg.insert i.1 i.2.2
  | Round.rmR as => as.reverse.map Chg.remove

def roundsOut : List Round → List Chg
  | [] => []
  | r :: rs => roundOut r ++ roundsOut rs

/-- Well-behavedness of a round sequence with respect to the evolving
live-address set: an `Add` never re-adds a live address (and is
duplicate-free), a `Remove` removes only live addresses (each once). -/
def wfRounds : List Addr → List Round → Bool
  | _, [] => true
  | live, Round.addR items :: rs =>
    decide ((items.map fun i => i.1).Nodup) &&
    items.all (fun i => !live.contains i.1) &&
    wfRounds (live ++ items.map fun i => i.1) rs
  | live, Round.rmR as :: rs =>
    decide as.Nodup &&
    as.all (fun a => live.contains a) &&
    wfRounds (live.filter fun x => !as.contains x) rs

/-- A quiescent driver: resolving, with no pending removals, no
reconciliation state and no in-flight builds. -/
def Quiesce (d : Discover) : Prop :=
  d.state = RState.resolving ∧ d.pendingRemovals = [] ∧
  d.activeEndpoints = [] ∧ d.makeFutures.futures = [] ∧
  d.makeFutures.cancelations = []

/-! ### Build-set operation sequences (for the set invariant) -/

/-- The operations on the build set named by the specification. -/
inductive MfOp where
  | pushOp (a : Addr) (fut : List BPoll)
  | removeOp (a : Addr)
  | pollOp
deriving DecidableEq

def MakeFuts.applyOp (m : MakeFuts) : MfOp → MakeFuts
  | MfOp.pushOp a f => m.push a f
  | MfOp.removeOp a => m.remove a
  | MfOp.pollOp => m.pollStream.2

def MakeFuts.applyAll (m : MakeFuts) (ops : List MfOp) : MakeFuts :=
  ops.foldl MakeFuts.applyOp m

/-- The correspondence exactly as claimed: at most one future in the set
per address, every future in the set has a cancellation entry, and every
cancellation entry has a future in the set. -/
def strictCorrespond (m : MakeFuts) : Prop :=
  (m.futures.map Slot.addr).Nodup ∧
  (∀ s ∈ m.futures, (lookupKey m.cancelations s.addr).isSome = true) ∧
  (∀ p ∈ m.cancelations, ∃ s ∈ m.futures, s.addr = p.1)

/-- The live (not-yet-canceled) futures of the set. -/
def liveSlots (m : MakeFuts) : List Slot :=
  m.futures.filter fun s => !s.canceled

/-- The correspondence that actually holds: between cancellation entries
and live futures. -/
def liveCorrespond (m : MakeFuts) : Prop :=
  ((liveSlots m).map Slot.addr).Nodup ∧
  (∀ s ∈ liveSlots m, (s.addr, s.chan) ∈ m.cancelations) ∧
  (∀ p ∈ m.cancelations, ∃ s ∈ liveSlots m, s.addr = p.1 ∧ s.chan = p.2)

/-- Internal strengthening used for the induction: channel identities are
fresh and pairwise distinct, keys are distinct, and live futures and
cancellation entries are in exact (addr, chan) correspondence. -/
def MfInv (m : MakeFuts) : Prop :=
  (∀ p ∈ m.cancelations, p.2 < m.nextId) ∧
  (∀ s ∈ m.futures, s.chan < m.nextId) ∧
  keysNodup m.cancelations ∧
  (m.futures.map Slot.chan).Nodup ∧
  (∀ s ∈ m.futures, s.canceled = false → (s.addr, s.chan) ∈ m.cancelations) ∧
  (∀ p ∈ m.cancelations, ∃ s ∈ m.futures,
      s.canceled = false ∧ s.addr = p.1 ∧ s.chan = p.2)

/-- A build script that never fails. -/
def futErrFree (f : List BPoll) : Bool :=
  f.all fun b => match b with | BPoll.err => false | _ => true

def opErrFree : MfOp → Bool
  | MfOp.pushOp _ f => futErrFree f
  | _ => true

def opsErrFree (ops : List MfOp) : Bool := ops.all opErrFree

/-- All futures in the set have error-free scripts. -/
def MfErrFree (m : MakeFuts) : Prop :=
  ∀ s ∈ m.futures, futErrFree s.inner = true

/-- Projection identifying a slot across inner-script advancement. -/
def proj (s : Slot) : Addr × Nat × Bool := (s.addr, s.chan, s.canceled)

instance {β : Type} (l : List (Nat × β)) : Decidable (keysNodup l) := by
  unfold keysNodup
  exact inferInstance

instance (m : MakeFuts) : Decidable (strictCorrespond m) := by
  unfold strictCorrespond
  exact inferInstance

instance (m : MakeFuts) : Decidable (liveCorrespond m) := by
  unfold liveCorrespond
  exact inferInstance

instance (m : MakeFuts) : Decidable (MfInv m) := by
  unfold MfInv keysNodup
  exact inferInstance

instance (d : Discover) : Decidable (Quiesce d) := by
  unfold Quiesce
  exact inferInstance

/-! ### The buffer daemon (`buffer.rs`) -/

/-- The `Never` type carried by the disconnect channel. -/
inductive Never' where
deriving DecidableEq

/-- Scripted poll result of the disconnect `oneshot::Receiver<Never>`:
still pending, sender dropped (`Err`), or an actual value (impossible). -/
inductive DiscoEv where
  | pending
  | lost
  | fired (x : Never')
deriving DecidableEq

/-- Scripted result of `tx.poll_ready()` on the bounded change channel. -/
inductive ChanEv where
  | ready
  | notReady
  | lost
deriving DecidableEq

/-- Scripted result of the inner driver's `poll`. -/
inductive DrvEv where
  | change (c : Chg)
  | notReady
  | err
deriving DecidableEq

/-- The daemon task state: the three scripts it polls, in order, plus the
changes successfully sent into the channel. -/
structure DCfg where
  disc : List DiscoEv
  chan : List ChanEv
  drv : List DrvEv
  sent : List Chg
deriving DecidableEq

/-- Result of `Future::poll for Daemon`. -/
inductive DaemonOut where
  | done
  | notReady
  | errOut
  | fuelOut
deriving DecidableEq

/-- One pass of the daemon loop after the disconnect check: channel
readiness, then the driver; `none` means `try_send` succeeded and the
loop continues with the updated state. -/
def daemonAfterDisc (c1 : DCfg) : Option DaemonOut × DCfg :=
  match c1.chan with
  | [] => (some DaemonOut.notReady, c1)
  | ChanEv.notReady :: t => (some DaemonOut.notReady, { c1 with chan := t })
  | ChanEv.lost :: t => (some DaemonOut.errOut, { c1 with chan := t })
  | ChanEv.ready :: t =>
    match c1.drv with
    | [] => (some DaemonOut.notReady, { c1 with chan := t })
    | DrvEv.notReady :: u => (some DaemonOut.notReady, { c1 with chan := t, drv := u })
    | DrvEv.err :: u => (some DaemonOut.errOut, { c1 with chan := t, drv := u })
    | DrvEv.change ch :: u =>
      (none, { c1 with chan := t, drv := u, sent := c1.sent ++ [ch] })

/-- One iteration of the daemon loop: poll the disconnect signal first,
then continue with `daemonAfterDisc`. -/
def daemonIter (c : DCfg) : Option DaemonOut × DCfg :=
  match c.disc with
  | DiscoEv.lost :: t => (some DaemonOut.done, { c with disc := t })
  | DiscoEv.fired x :: _ => nomatch x
  | DiscoEv.pending :: t => daemonAfterDisc { c with disc := t }
  | [] => daemonAfterDisc c

/-- `Future::poll for Daemon`: each loop iteration polls the disconnect
signal, then channel send-readiness, then the inner driver. -/
def daemonPoll : Nat → DCfg → DaemonOut × DCfg
  | 0, c => (DaemonOut.fuelOut, c)
  | n + 1, c =>
    match daemonIter c with
    | (some o, c') => (o, c')
    | (none, c') => daemonPoll n c'

/-- Slots whose builds complete immediately with the given services, in
order (channel identities arbitrary). -/
inductive SlotsSpec : List (Addr × Svc) → List Slot → Prop
  | nil : SlotsSpec [] []
  | cons (a : Addr) (v : Svc) (ch : Nat) {items : List (Addr × Svc)} {ss : List Slot} :
      SlotsSpec items ss →
      SlotsSpec ((a, v) :: items) (⟨a, ch, false, [BPoll.ready v]⟩ :: ss)

/-- Base driver configuration: freshly quiescent, with empty scripts. -/
def d0 : Discover :=
  { state := RState.resolving, activeEndpoints := [], pendingRemovals := [],
    makeFutures := MakeFuts.empty, connEvs := [], resEvs := [], timerEvs := [],
    readyEvs := [], callFuts := [], resets := 0, delays := 0 }

/-! ## Lemmas -/

/-! ### Association-list operations -/

theorem popBack_concat {α : Type} (ps : List α) (a : α) :
    popBack (ps ++ [a]) = some (a, ps) := by
  induction ps with
  | nil => rfl
  | cons b ps ih => simp [popBack, ih]

theorem popBack_of_ne_nil {α : Type} {l : List α} (h : l ≠ []) :
    ∃ a ps, l = ps ++ [a] ∧ popBack l = some (a, ps) := by
  rcases List.eq_nil_or_concat l with rfl | ⟨L, b, rfl⟩
  · exact absurd rfl h
  · exact ⟨b, L, by simp [List.concat_eq_append, popBack_concat]⟩

theorem swapRemoveKey_keys_perm {β : Type} (l : List (Nat × β)) (k : Nat) :
    ((swapRemoveKey l k).map Prod.fst).Perm ((l.map Prod.fst).erase k) := by
  induction l with
  | nil => simp [swapRemoveKey]
  | cons p rest ih =>
    by_cases hp : p.1 = k
    · subst hp
      rcases List.eq_nil_or_concat rest with rfl | ⟨L, b, rfl⟩
      · simp [swapRemoveKey]
      · simp only [swapRemoveKey, if_pos rfl, List.concat_eq_append,
          List.getLast?_concat, List.dropLast_concat, List.map_cons, List.map_append,
          List.erase_cons_head]
        simpa using (List.perm_append_singleton b.1 (List.map Prod.fst L)).symm
    · simp only [swapRemoveKey, hp, if_false, List.map_cons]
      rw [List.erase_cons_tail (by simp [hp])]
      exact ih.cons p.1

theorem swapRemoveKey_subset {β : Type} {l : List (Nat × β)} {k : Nat} {q : Nat × β}
    (hq : q ∈ swapRemoveKey l k) : q ∈ l := by
  induction l with
  | nil => simpa [swapRemoveKey] using hq
  | cons p rest ih =>
    by_cases hp : p.1 = k
    · subst hp
      rcases List.eq_nil_or_concat rest with rfl | ⟨L, b, rfl⟩
      · simp [swapRemoveKey] at hq
      · simp only [swapRemoveKey, if_pos rfl, List.concat_eq_append,
          List.getLast?_concat, List.dropLast_concat] at hq
        rcases List.mem_cons.1 hq with rfl | hq
        · simp
        · simp [List.mem_cons, List.mem_append, hq]
    · simp only [swapRemoveKey, hp, if_false] at hq
      rcases List.mem_cons.1 hq with rfl | hq
      · simp
      · exact List.mem_cons_of_mem _ (ih hq)

theorem mem_swapRemoveKey {β : Type} {l : List (Nat × β)} {k : Nat} {q : Nat × β}
    (hq : q ∈ l) (hne : q.1 ≠ k) : q ∈ swapRemoveKey l k := by
  induction l with
  | nil => simpa using hq
  | cons p rest ih =>
    by_cases hp : p.1 = k
    · subst hp
      have hqr : q ∈ rest := by
        rcases List.mem_cons.1 hq with rfl | h
        · exact absurd rfl hne
        · exact h
      rcases List.eq_nil_or_concat rest with rfl | ⟨L, b, rfl⟩
      · simp at hqr
      · simp only [swapRemoveKey, if_pos rfl, List.concat_eq_append,
          List.getLast?_concat, List.dropLast_concat]
        simp only [List.concat_eq_append] at hqr
        rcases List.mem_append.1 hqr with h | h
        · exact List.mem_cons_of_mem _ h
        · simp only [List.mem_singleton] at h
          exact h ▸ List.mem_cons_self _ _
    · simp only [swapRemoveKey, hp, if_false]
      rcases List.mem_cons.1 hq with rfl | h
      · exact List.mem_cons_self _ _
      · exact List.mem_cons_of_mem _ (ih h)

theorem not_mem_swapRemoveKey {β : Type} {l : List (Nat × β)} {k : Nat}
    (h : keysNodup l) (x : β) : (k, x) ∉ swapRemoveKey l k := by
  intro hmem
  have hperm := swapRemoveKey_keys_perm l k
  have hk : k ∈ (swapRemoveKey l k).map Prod.fst :=
    List.mem_map.2 ⟨(k, x), hmem, rfl⟩
  have : k ∈ (l.map Prod.fst).erase k := hperm.mem_iff.1 hk
  exact (List.Nodup.not_mem_erase h) this

theorem keysNodup_swapRemoveKey {β : Type} {l : List (Nat × β)} {k : Nat}
    (h : keysNodup l) : keysNodup (swapRemoveKey l k) :=
  (swapRemoveKey_keys_perm l k).nodup_iff.2 (List.Nodup.erase k h)

theorem mem_keys_swapRemoveKey {β : Type} {l : List (Nat × β)} {k b : Nat}
    (h : keysNodup l) :
    b ∈ (swapRemoveKey l k).map Prod.fst ↔ b ∈ l.map Prod.fst ∧ b ≠ k := by
  rw [(swapRemoveKey_keys_perm l k).mem_iff, List.Nodup.mem_erase_iff h]
  exact and_comm

theorem keysNodup_removeKeys {β : Type} {l : List (Nat × β)} (ks : List Nat)
    (h : keysNodup l) : keysNodup (removeKeys l ks) := by
  induction ks generalizing l with
  | nil => exact h
  | cons k ks ih => exact ih (keysNodup_swapRemoveKey h)

theorem mem_keys_removeKeys {β : Type} {l : List (Nat × β)} {ks : List Nat} {b : Nat}
    (h : keysNodup l) :
    b ∈ (removeKeys l ks).map Prod.fst ↔ b ∈ l.map Prod.fst ∧ b ∉ ks := by
  induction ks generalizing l with
  | nil => simp [removeKeys]
  | cons k ks ih =>
    have : removeKeys l (k :: ks) = removeKeys (swapRemoveKey l k) ks := rfl
    rw [this, ih (keysNodup_swapRemoveKey h), mem_keys_swapRemoveKey h]
    constructor
    · rintro ⟨⟨hb, hbk⟩, hbks⟩
      exact ⟨hb, by simp [hbk, hbks]⟩
    · rintro ⟨hb, hmem⟩
      simp only [List.mem_cons, not_or] at hmem
      exact ⟨⟨hb, hmem.1⟩, hmem.2⟩

theorem lookupKey_eq_none {β : Type} {l : List (Nat × β)} {k : Nat} :
    lookupKey l k = none ↔ k ∉ l.map Prod.fst := by
  induction l with
  | nil => simp [lookupKey]
  | cons p rest ih =>
    by_cases hp : p.1 = k
    · simp [lookupKey, hp]
    · simp [lookupKey, hp, ih, Ne.symm hp]

theorem mem_of_lookupKey_eq_some {β : Type} {l : List (Nat × β)} {k : Nat} {v : β}
    (h : lookupKey l k = some v) : (k, v) ∈ l := by
  induction l with
  | nil => simp [lookupKey] at h
  | cons p rest ih =>
    by_cases hp : p.1 = k
    · simp only [lookupKey, hp, if_true, Option.some.injEq] at h
      subst h
      have : p = (k, p.2) := by
        cases p
        simpa using hp
      exact this ▸ List.mem_cons_self _ _
    · simp only [lookupKey, hp, if_false] at h
      exact List.mem_cons_of_mem _ (ih h)

theorem keys_mem_of_lookupKey_eq_some {β : Type} {l : List (Nat × β)} {k : Nat} {v : β}
    (h : lookupKey l k = some v) : k ∈ l.map Prod.fst :=
  List.mem_map.2 ⟨(k, v), mem_of_lookupKey_eq_some h, rfl⟩

theorem lookupKey_eq_some_of_mem {β : Type} {l : List (Nat × β)} {k : Nat} {v : β}
    (h : keysNodup l) (hm : (k, v) ∈ l) : lookupKey l k = some v := by
  induction l with
  | nil => simp at hm
  | cons p rest ih =>
    simp only [keysNodup, List.map_cons, List.nodup_cons] at h
    rcases List.mem_cons.1 hm with rfl | hm
    · simp [lookupKey]
    · have hp : p.1 ≠ k := by
        intro he
        exact h.1 (he ▸ List.mem_map.2 ⟨(k, v), hm, rfl⟩)
      simp [lookupKey, hp, ih h.2 hm]

theorem map_fst_replaceKey {β : Type} {l : List (Nat × β)} {k : Nat} {v : β}
    (h : k ∈ l.map Prod.fst) :
    (replaceKey l k v).map Prod.fst = l.map Prod.fst := by
  induction l with
  | nil => simp at h
  | cons p rest ih =>
    by_cases hp : p.1 = k
    · simp [replaceKey, hp]
    · have hkr : k ∈ rest.map Prod.fst := by
        rw [List.map_cons] at h
        rcases List.mem_cons.1 h with he | hr
        · exact absurd he.symm hp
        · exact hr
      simp [replaceKey, hp, ih hkr]

theorem mem_replaceKey_iff {β : Type} {l : List (Nat × β)} {k : Nat} {v : β}
    {p : Nat × β} (h : keysNodup l) (hk : k ∈ l.map Prod.fst) :
    p ∈ replaceKey l k v ↔ (p ∈ l ∧ p.1 ≠ k) ∨ p = (k, v) := by
  induction l with
  | nil => simp at hk
  | cons q rest ih =>
    simp only [keysNodup, List.map_cons, List.nodup_cons] at h
    by_cases hq : q.1 = k
    · simp only [replaceKey, hq, if_true]
      constructor
      · intro hm
        rcases List.mem_cons.1 hm with rfl | hm
        · exact Or.inr rfl
        · refine Or.inl ⟨List.mem_cons_of_mem _ hm, ?_⟩
          intro he
          exact h.1 (hq ▸ he ▸ List.mem_map.2 ⟨p, hm, rfl⟩)
      · rintro (⟨hm, hne⟩ | rfl)
        · rcases List.mem_cons.1 hm with rfl | hm
          · exact absurd hq hne
          · exact List.mem_cons_of_mem _ hm
        · exact List.mem_cons_self _ _
    · have hkr : k ∈ rest.map Prod.fst := by
        rw [List.map_cons] at hk
        rcases List.mem_cons.1 hk with he | hr
        · exact absurd he.symm hq
        · exact hr
      simp only [replaceKey, hq, if_false]
      constructor
      · intro hm
        rcases List.mem_cons.1 hm with rfl | hm
        · exact Or.inl ⟨List.mem_cons_self _ _, hq⟩
        · rcases (ih h.2 hkr).1 hm with ⟨hm', hne⟩ | rfl
          · exact Or.inl ⟨List.mem_cons_of_mem _ hm', hne⟩
          · exact Or.inr rfl
      · rintro (⟨hm, hne⟩ | rfl)
        · rcases List.mem_cons.1 hm with rfl | hm
          · exact List.mem_cons_self _ _
          · exact List.mem_cons_of_mem _ ((ih h.2 hkr).2 (Or.inl ⟨hm, hne⟩))
        · exact List.mem_cons_of_mem _ ((ih h.2 hkr).2 (Or.inr rfl))

/-! ### Reconciliation (C1, C2) -/

/-- C1: on reconnect with non-empty `AE`, a first update `Add(list)` makes
the driver yield `Remove(AE.keys ∖ list.addrs)` first, and on the following
turn `Add(list)` verbatim; no address present in both `AE` and `list` is
removed. -/
theorem c1_reconcile_add (d : Discover) (eps : List (Addr × Ep)) (rest : List ResEv)
    (hst : d.state = RState.connected) (hne : d.activeEndpoints ≠ [])
    (hnd : keysNodup d.activeEndpoints)
    (hres : d.resEvs = ResEv.ready (Update.add eps) :: rest) :
    (pollResolution 2 d).1 =
      ResPoll.ready (Update.remove
        ((removeKeys d.activeEndpoints (eps.map Prod.fst)).map Prod.fst)) ∧
    ((removeKeys d.activeEndpoints (eps.map Prod.fst)).map Prod.fst).Nodup ∧
    (∀ b, b ∈ (removeKeys d.activeEndpoints (eps.map Prod.fst)).map Prod.fst ↔
        (b ∈ d.activeEndpoints.map Prod.fst ∧ b ∉ eps.map Prod.fst)) ∧
    (pollResolution 2 d).2.activeEndpoints = [] ∧
    (pollResolution 1 (pollResolution 2 d).2).1 = ResPoll.ready (Update.add eps) := by
  have h1 : resIter d =
      (none, { d with state := RState.reconcile (some (Update.add eps)), resEvs := rest }) := by
    simp [resIter, hst, hres, hne]
  have h2 : pollResolution 2 d =
      pollResolution 1 { d with state := RState.reconcile (some (Update.add eps)), resEvs := rest } := by
    simp [pollResolution, h1]
  have h3 : pollResolution 1
      { d with state := RState.reconcile (some (Update.add eps)), resEvs := rest } =
      (ResPoll.ready (Update.remove
        ((removeKeys d.activeEndpoints (eps.map Prod.fst)).map Prod.fst)),
       { d with state := RState.reconcile (some (Update.add eps)), resEvs := rest,
                activeEndpoints := [] }) := by
    simp [pollResolution, resIter, hne]
  rw [h2, h3]
  refine ⟨rfl, keysNodup_removeKeys _ hnd, fun b => mem_keys_removeKeys hnd, rfl, ?_⟩
  simp [pollResolution, resIter]

/-- C2 counterexample: with `AE = {1}` and first fresh update `Remove [1]`
the driver emits `Remove [1, 1]`: address 1 appears twice, not once. -/
theorem c2_cex :
    (pollResolution 2
        { d0 with
            state := RState.connected,
            activeEndpoints := [(1, 10)],
            resEvs := [ResEv.ready (Update.remove [1])] }).1 =
      ResPoll.ready (Update.remove [1, 1]) ∧
    List.count 1 [1, 1] ≠ 1 := by
  exact ⟨by decide, by decide⟩

/-- C2 (amended): on reconnect with non-empty `AE`, a first update
`Remove(addrs)` yields a single `Remove` whose address list is the
concatenation `addrs ++ AE.keys` (so, as a set, the union `addrs ∪ AE.keys`,
but an address present in both appears twice), and `AE` is cleared. -/
theorem c2_remove_reconcile (d : Discover) (addrs : List Addr) (rest : List ResEv)
    (hst : d.state = RState.connected) (hne : d.activeEndpoints ≠ [])
    (hres : d.resEvs = ResEv.ready (Update.remove addrs) :: rest) :
    (pollResolution 2 d).1 =
      ResPoll.ready (Update.remove (addrs ++ d.activeEndpoints.map Prod.fst)) ∧
    (pollResolution 2 d).2.activeEndpoints = [] ∧
    (∀ b, b ∈ addrs ++ d.activeEndpoints.map Prod.fst ↔
        (b ∈ addrs ∨ b ∈ d.activeEndpoints.map Prod.fst)) := by
  have h1 : resIter d =
      (none, { d with state := RState.reconcile (some (Update.remove addrs)), resEvs := rest }) := by
    simp [resIter, hst, hres, hne]
  have h2 : pollResolution 2 d =
      pollResolution 1 { d with state := RState.reconcile (some (Update.remove addrs)), resEvs := rest } := by
    simp [pollResolution, h1]
  rw [h2]
  refine ⟨by simp [pollResolution, resIter], by simp [pollResolution, resIter], ?_⟩
  intro b
  exact List.mem_append

/-! ### Backoff reset (C4) -/

/-- C4: every single step of the resolution loop that moves the driver from
`Connected`, or from `Reconcile`, into `Resolving` invokes
`backoff.reset_delay()` (modelled by the `resets` counter). -/
theorem c4_reset_on_reconnect (d : Discover)
    (h : d.state = RState.connected ∨ ∃ u, d.state = RState.reconcile u)
    (hres : (resIter d).2.state = RState.resolving) :
    (resIter d).2.resets = d.resets + 1 := by
  rcases h with h | ⟨u, h⟩
  · by_cases hae : d.activeEndpoints = []
    · simp [resIter, h, hae]
    · cases hevs : d.resEvs with
      | nil => simp [resIter, h, hae, hevs] at hres
      | cons e t =>
        cases e <;> simp [resIter, h, hae, hevs] at hres
  · cases u with
    | none => simp [resIter, h]
    | some upd =>
      cases upd with
      | add eps =>
        by_cases hae : d.activeEndpoints = [] <;> simp [resIter, h, hae] at hres
      | remove addrs => simp [resIter, h] at hres
      | empty =>
        by_cases hae : d.activeEndpoints = [] <;> simp [resIter, h, hae] at hres
      | doesNotExist =>
        by_cases hae : d.activeEndpoints = [] <;> simp [resIter, h, hae] at hres

/-! ### Backpressure (C5) -/

/-- C5: `poll_removals` pops and returns a pending removal first (firing
its cancellation), without touching the resolution; and when the maker is
not ready it returns `NotReady` without pulling the next update. -/
theorem c5_backpressure (n : Nat) (d : Discover) :
    (∀ a ps, popBack d.pendingRemovals = some (a, ps) →
       pollRemovals (n + 1) d =
         (RemPoll.ready a,
          { d with pendingRemovals := ps, makeFutures := d.makeFutures.remove a })) ∧
    (d.pendingRemovals = [] →
      (d.readyEvs = [] ∨ ∃ t, d.readyEvs = RdyEv.notReady :: t) →
      (pollRemovals (n + 1) d).1 = RemPoll.notReady ∧
      (pollRemovals (n + 1) d).2.resEvs = d.resEvs ∧
      (pollRemovals (n + 1) d).2.state = d.state ∧
      (pollRemovals (n + 1) d).2.pendingRemovals = []) := by
  constructor
  · intro a ps hpb
    simp [pollRemovals, hpb]
  · rintro hpr (hre | ⟨t, hre⟩) <;>
      simp [pollRemovals, hpr, hre, popBack]

/-! ### `Empty` / `DoesNotExist` handling (C8) -/

/-- C8: when the resolution yields `Update::Empty` or
`Update::DoesNotExist` in the `Resolving` state, `poll_removals` reaches
the `unimplemented!()` arm and panics (modelled as `diverged`): the update
is not surfaced to the consumer. -/
theorem c8_empty_diverges :
    (pollRemovals 2
        { d0 with
            resEvs := [ResEv.ready Update.empty],
            readyEvs := [RdyEv.ready] }).1 = RemPoll.diverged ∧
    (pollRemovals 2
        { d0 with
            resEvs := [ResEv.ready Update.doesNotExist],
            readyEvs := [RdyEv.ready] }).1 = RemPoll.diverged := by
  exact ⟨by decide, by decide⟩

/-! ### Pending-removal draining (C10 and helpers) -/

theorem mfRemove_empty (a : Addr) (n : Nat) :
    MakeFuts.remove ⟨[], [], n⟩ a = ⟨[], [], n⟩ := rfl

/-- Draining a pending-removal queue with no in-flight builds: the driver
emits the queue back-to-front. -/
theorem drain_removes (ps : List Addr) :
    ∀ (d : Discover) (f n : Nat), d.pendingRemovals = ps → d.readyEvs = [] →
    d.makeFutures = ⟨[], [], n⟩ → ps.length + 1 ≤ f →
    runDriver f d =
      (ps.reverse.map Chg.remove, { d with pendingRemovals := [] }, DPoll.notReady) := by
  induction ps using List.reverseRecOn with
  | nil =>
    intro d f n hpr hre hmf hf
    match f, hf with
    | f + 1, _ =>
      have h1 : pollRemovals (f + 1) d = (RemPoll.notReady, d) := by
        simp [pollRemovals, hpr, hre, popBack]
      have h2 : d.makeFutures.pollStream = (MfOut.notReady, ⟨[], [], n⟩) := by
        rw [hmf]
        rfl
      have h3 : discoverPoll (f + 1) d = (DPoll.notReady, { d with makeFutures := ⟨[], [], n⟩ }) := by
        simp [discoverPoll, h1, h2]
      have h4 : ({ d with makeFutures := (⟨[], [], n⟩ : MakeFuts) } : Discover) = d := by
        rw [← hmf]
      have h5 : ({ d with pendingRemovals := ([] : List Addr) } : Discover) = d := by
        rw [← hpr]
      rw [runDriver, h3, h4, h5]
      simp
  | append_singleton ps a ih =>
    intro d f n hpr hre hmf hf
    have hf' : ps.length + 1 ≤ f - 1 := by
      simp only [List.length_append, List.length_singleton] at hf
      omega
    match f, hf with
    | f + 1, _ =>
      have hpop : popBack d.pendingRemovals = some (a, ps) := by
        rw [hpr]
        exact popBack_concat ps a
      have hrm : d.makeFutures.remove a = ⟨[], [], n⟩ := by
        rw [hmf]
        rfl
      have h1 : pollRemovals (f + 1) d =
          (RemPoll.ready a, { d with pendingRemovals := ps, makeFutures := ⟨[], [], n⟩ }) := by
        simp [pollRemovals, hpop, hrm]
      have h3 : discoverPoll (f + 1) d =
          (DPoll.change (Chg.remove a),
           { d with pendingRemovals := ps, makeFutures := ⟨[], [], n⟩ }) := by
        simp [discoverPoll, h1]
      have ihx := ih { d with pendingRemovals := ps, makeFutures := ⟨[], [], n⟩ } f n rfl hre rfl
        (by simpa using hf')
      simp only [runDriver, h3, ihx]
      rw [hmf]
      simp [List.reverse_append]

/-- C10: a single `Update::Remove([a1, ..., an])` arriving while `PR` is
empty is emitted to the consumer in LIFO order: `Remove(an)` first,
`Remove(a1)` last. -/
theorem c10_lifo_removals (addrs : List Addr) (d : Discover)
    (hst : d.state = RState.resolving) (hpr : d.pendingRemovals = [])
    (hres : d.resEvs = [ResEv.ready (Update.remove addrs)])
    (hready : d.readyEvs = [RdyEv.ready])
    (hmf : d.makeFutures = ⟨[], [], 0⟩) :
    (runDriver (addrs.length + 2) d).1 = addrs.reverse.map Chg.remove := by
  obtain ⟨st, ae, pr, mf, ce, re, te, rye, cf, rs, dl⟩ := d
  dsimp only at hst hpr hres hready hmf
  subst hst hpr hres hready hmf
  have h1 : pollRemovals (addrs.length + 2)
      ⟨RState.resolving, ae, [], ⟨[], [], 0⟩, ce, [ResEv.ready (Update.remove addrs)],
        te, [RdyEv.ready], cf, rs, dl⟩ =
      pollRemovals (addrs.length + 1)
        ⟨RState.resolving, ae, addrs, ⟨[], [], 0⟩, ce, [], te, [], cf, rs, dl⟩ := by
    show pollRemovals (addrs.length + 1 + 1) _ = _
    simp [pollRemovals, pollResolution, resIter, popBack]
  rcases List.eq_nil_or_concat addrs with rfl | ⟨L, b, hab⟩
  · have h3 : runDriver (([] : List Addr).length + 2)
        ⟨RState.resolving, ae, [], ⟨[], [], 0⟩, ce, [ResEv.ready (Update.remove [])],
          te, [RdyEv.ready], cf, rs, dl⟩ =
        ([], ⟨RState.resolving, ae, [], ⟨[], [], 0⟩, ce, [], te, [], cf, rs, dl⟩,
         DPoll.notReady) := by
      show runDriver (([] : List Addr).length + 1 + 1) _ = _
      rw [runDriver, discoverPoll, h1]
      simp [pollRemovals, popBack, MakeFuts.pollStream, pollSlots]
    rw [h3]
    rfl
  · subst hab
    simp only [List.concat_eq_append] at h1 ⊢
    have h2 : pollRemovals ((L ++ [b]).length + 1)
        ⟨RState.resolving, ae, L ++ [b], ⟨[], [], 0⟩, ce, [], te, [], cf, rs, dl⟩ =
        (RemPoll.ready b,
         ⟨RState.resolving, ae, L, ⟨[], [], 0⟩, ce, [], te, [], cf, rs, dl⟩) := by
      show pollRemovals ((L ++ [b]).length - 1 + 1 + 1) _ = _
      simp [pollRemovals, popBack_concat, mfRemove_empty]
    have hdrain := drain_removes L
      ⟨RState.resolving, ae, L, ⟨[], [], 0⟩, ce, [], te, [], cf, rs, dl⟩
      ((L ++ [b]).length + 1) 0 rfl rfl rfl (by simp)
    show (runDriver ((L ++ [b]).length + 1 + 1) _).1 = _
    rw [runDriver, discoverPoll, h1, h2]
    dsimp only
    rw [hdrain]
    simp [List.reverse_append]

/-! ### Witnesses for the driver theorems -/

/-- C1 witness at `AE = {1, 2}`, `Add [(2, _), (3, _)]`. -/
theorem c1_witness :
    (pollResolution 2
        { d0 with
            state := RState.connected,
            activeEndpoints := [(1, 10), (2, 20)],
            resEvs := [ResEv.ready (Update.add [(2, 21), (3, 31)])] }).1 =
      ResPoll.ready (Update.remove [1]) ∧
    (pollResolution 1
        (pollResolution 2
          { d0 with
              state := RState.connected,
              activeEndpoints := [(1, 10), (2, 20)],
              resEvs := [ResEv.ready (Update.add [(2, 21), (3, 31)])] }).2).1 =
      ResPoll.ready (Update.add [(2, 21), (3, 31)]) := by
  have h := c1_reconcile_add
    { d0 with
        state := RState.connected,
        activeEndpoints := [(1, 10), (2, 20)],
        resEvs := [ResEv.ready (Update.add [(2, 21), (3, 31)])] }
    [(2, 21), (3, 31)] [] rfl (by decide) (by decide) rfl
  exact ⟨h.1.trans (by decide), h.2.2.2.2⟩

/-- C2 (amended) witness at `AE = {1}`, `Remove [9]`. -/
theorem c2_witness :
    (pollResolution 2
        { d0 with
            state := RState.connected,
            activeEndpoints := [(1, 10)],
            resEvs := [ResEv.ready (Update.remove [9])] }).1 =
      ResPoll.ready (Update.remove [9, 1]) ∧
    (pollResolution 2
        { d0 with
            state := RState.connected,
            activeEndpoints := [(1, 10)],
            resEvs := [ResEv.ready (Update.remove [9])] }).2.activeEndpoints = [] := by
  have h := c2_remove_reconcile
    { d0 with
        state := RState.connected,
        activeEndpoints := [(1, 10)],
        resEvs := [ResEv.ready (Update.remove [9])] }
    [9] [] rfl (by decide) rfl
  exact ⟨h.1.trans (by decide), h.2.1⟩

/-- C4 witness: a `Connected` driver with empty `AE` reconnects and resets
the backoff. -/
theorem c4_witness :
    (resIter { d0 with state := RState.connected }).2.resets = d0.resets + 1 := by
  exact c4_reset_on_reconnect { d0 with state := RState.connected }
    (Or.inl rfl) (by decide)

/-- C5 witness: a pending removal is popped (LIFO) without touching the
resolution, and a not-ready maker pauses resolution polling. -/
theorem c5_witness :
    pollRemovals 1 { d0 with pendingRemovals := [4, 7] } =
      (RemPoll.ready 7,
       { d0 with pendingRemovals := [4],
                 makeFutures := MakeFuts.empty.remove 7 }) ∧
    (pollRemovals 1 { d0 with readyEvs := [RdyEv.notReady], resEvs := [ResEv.notReady] }).1 =
      RemPoll.notReady ∧
    (pollRemovals 1 { d0 with readyEvs := [RdyEv.notReady], resEvs := [ResEv.notReady] }).2.resEvs =
      [ResEv.notReady] := by
  have h1 := (c5_backpressure 0 { d0 with pendingRemovals := [4, 7] }).1 7 [4] (by decide)
  have h2 := (c5_backpressure 0
      { d0 with readyEvs := [RdyEv.notReady], resEvs := [ResEv.notReady] }).2 rfl
      (Or.inr ⟨[], rfl⟩)
  exact ⟨h1, h2.1, h2.2.1⟩

/-- C10 witness at `Remove [1, 2, 3]`. -/
theorem c10_witness :
    (runDriver (([1, 2, 3] : List Addr).length + 2)
        { d0 with
            resEvs := [ResEv.ready (Update.remove [1, 2, 3])],
            readyEvs := [RdyEv.ready] }).1 =
      ([1, 2, 3] : List Addr).reverse.map Chg.remove := by
  exact c10_lifo_removals [1, 2, 3]
    { d0 with
        resEvs := [ResEv.ready (Update.remove [1, 2, 3])],
        readyEvs := [RdyEv.ready] }
    rfl rfl rfl rfl rfl

/-! ### The build set: scan lemmas -/

theorem proj_eq_iff {s t : Slot} :
    proj s = proj t ↔ (s.addr = t.addr ∧ s.chan = t.chan ∧ s.canceled = t.canceled) := by
  simp [proj, Prod.ext_iff]

/-- Case analysis on `MakeFuture::poll` for one slot. -/
theorem pollOne_cases (s : Slot) :
    (s.canceled = true ∧ MakeFuture.pollOne s = (MakeFutureOut.cancelErr, s)) ∨
    (s.canceled = false ∧ ∃ v t, s.inner = BPoll.ready v :: t ∧
        MakeFuture.pollOne s = (MakeFutureOut.done s.addr v, s)) ∨
    (s.canceled = false ∧ ∃ t, s.inner = BPoll.err :: t ∧
        MakeFuture.pollOne s = (MakeFutureOut.innerErr, { s with inner := t })) ∨
    (s.canceled = false ∧ ∃ s', MakeFuture.pollOne s = (MakeFutureOut.pend, s') ∧
        proj s' = proj s ∧ (∀ b ∈ s'.inner, b ∈ s.inner)) := by
  rcases s with ⟨sa, sch, sc, si⟩
  cases sc
  · cases si with
    | nil =>
      right; right; right
      exact ⟨rfl, ⟨sa, sch, false, []⟩, rfl, rfl, fun b hb => hb⟩
    | cons b t =>
      cases b with
      | ready v =>
        right; left
        exact ⟨rfl, v, t, rfl, rfl⟩
      | notReady =>
        right; right; right
        exact ⟨rfl, ⟨sa, sch, false, t⟩, rfl, rfl, fun b hb => List.mem_cons_of_mem _ hb⟩
      | err =>
        right; right; left
        exact ⟨rfl, t, rfl, rfl⟩
  · left
    exact ⟨rfl, rfl⟩

theorem pollSlots_acc_mem (fs : List Slot) :
    ∀ acc x, x ∈ acc → x ∈ (pollSlots acc fs).2 := by
  induction fs with
  | nil => intro acc x hx; simpa [pollSlots] using hx
  | cons s rest ih =>
    intro acc x hx
    rcases pollOne_cases s with ⟨hc, hpo⟩ | ⟨hc, v, t, hi, hpo⟩ | ⟨hc, t, hi, hpo⟩ |
      ⟨hc, s', hpo, hproj, hsub⟩
    · simpa [pollSlots, hpo] using ih acc x hx
    · simp [pollSlots, hpo, List.mem_append, hx]
    · simp [pollSlots, hpo, List.mem_append, hx]
    · simpa [pollSlots, hpo] using ih (acc ++ [s']) x (List.mem_append_left _ hx)

theorem pollSlots_proj_sublist (fs : List Slot) :
    ∀ acc, List.Sublist ((pollSlots acc fs).2.map proj) ((acc ++ fs).map proj) := by
  induction fs with
  | nil => intro acc; simp [pollSlots]
  | cons s rest ih =>
    intro acc
    have hmid : List.Sublist ((acc ++ rest).map proj) ((acc ++ s :: rest).map proj) := by
      simp only [List.map_append]
      exact List.Sublist.append_left (by simp) _
    rcases pollOne_cases s with ⟨hc, hpo⟩ | ⟨hc, v, t, hi, hpo⟩ | ⟨hc, t, hi, hpo⟩ |
      ⟨hc, s', hpo, hproj, hsub⟩
    · simp only [pollSlots, hpo]
      exact (ih acc).trans hmid
    · simp only [pollSlots, hpo]
      exact hmid
    · simp only [pollSlots, hpo]
      exact hmid
    · simp only [pollSlots, hpo]
      have heq : (((acc ++ [s']) ++ rest).map proj) = ((acc ++ s :: rest).map proj) := by
        simp [hproj]
      exact heq ▸ ih (acc ++ [s'])

theorem pollSlots_notReady_mem (fs : List Slot) :
    ∀ acc fs', pollSlots acc fs = (MfOut.notReady, fs') →
    ∀ s ∈ fs, s.canceled = false → ∃ s' ∈ fs', proj s' = proj s := by
  induction fs with
  | nil => intro acc fs' h s hs; simp at hs
  | cons s0 rest ih =>
    intro acc fs' h s hs hlive
    rcases pollOne_cases s0 with ⟨hc, hpo⟩ | ⟨hc, v, t, hi, hpo⟩ | ⟨hc, t, hi, hpo⟩ |
      ⟨hc, s', hpo, hproj, hsub⟩
    · simp only [pollSlots, hpo] at h
      rcases List.mem_cons.1 hs with rfl | hs
      · rw [hlive] at hc
        exact absurd hc (by simp)
      · exact ih acc fs' h s hs hlive
    · simp only [pollSlots, hpo] at h
      exact absurd h (by simp)
    · simp only [pollSlots, hpo] at h
      exact absurd h (by simp)
    · simp only [pollSlots, hpo] at h
      rcases List.mem_cons.1 hs with rfl | hs
      · refine ⟨s', ?_, hproj⟩
        have : fs' = (pollSlots (acc ++ [s']) rest).2 := by
          rw [h]
        rw [this]
        exact pollSlots_acc_mem rest _ s' (by simp)
      · exact ih (acc ++ [s']) fs' h s hs hlive

theorem pollSlots_all_canceled (fs : List Slot) :
    ∀ acc, (∀ s ∈ fs, s.canceled = true) → pollSlots acc fs = (MfOut.notReady, acc) := by
  induction fs with
  | nil => intro acc _; rfl
  | cons s rest ih =>
    intro acc hall
    rcases pollOne_cases s with ⟨hc, hpo⟩ | ⟨hc, v, t, hi, hpo⟩ | ⟨hc, t, hi, hpo⟩ |
      ⟨hc, s', hpo, hproj, hsub⟩
    · simp only [pollSlots, hpo]
      exact ih acc (fun x hx => hall x (List.mem_cons_of_mem _ hx))
    · rw [hall s (List.mem_cons_self _ _)] at hc
      exact absurd hc (by simp)
    · rw [hall s (List.mem_cons_self _ _)] at hc
      exact absurd hc (by simp)
    · rw [hall s (List.mem_cons_self _ _)] at hc
      exact absurd hc (by simp)

theorem pollSlots_yield_src (fs : List Slot) :
    ∀ acc a v fs', pollSlots acc fs = (MfOut.yielded a v, fs') →
    ∃ s ∈ fs, s.canceled = false ∧ s.addr = a := by
  induction fs with
  | nil => intro acc a v fs' h; simp [pollSlots] at h
  | cons s0 rest ih =>
    intro acc a v fs' h
    rcases pollOne_cases s0 with ⟨hc, hpo⟩ | ⟨hc, v0, t, hi, hpo⟩ | ⟨hc, t, hi, hpo⟩ |
      ⟨hc, s', hpo, hproj, hsub⟩
    · simp only [pollSlots, hpo] at h
      obtain ⟨s, hs, h1, h2⟩ := ih acc a v fs' h
      exact ⟨s, List.mem_cons_of_mem _ hs, h1, h2⟩
    · simp only [pollSlots, hpo] at h
      have ha : s0.addr = a := by
        have h1 := congrArg Prod.fst h
        simp at h1
        exact h1.1
      exact ⟨s0, List.mem_cons_self _ _, hc, ha⟩
    · simp only [pollSlots, hpo] at h
      exact absurd h (by simp)
    · simp only [pollSlots, hpo] at h
      obtain ⟨s, hs, h1, h2⟩ := ih (acc ++ [s']) a v fs' h
      exact ⟨s, List.mem_cons_of_mem _ hs, h1, h2⟩

theorem pollSlots_err_source (fs : List Slot) :
    ∀ acc fs', pollSlots acc fs = (MfOut.errOut, fs') →
    ∃ s ∈ fs, s.canceled = false ∧ ∃ t, s.inner = BPoll.err :: t := by
  induction fs with
  | nil => intro acc fs' h; simp [pollSlots] at h
  | cons s0 rest ih =>
    intro acc fs' h
    rcases pollOne_cases s0 with ⟨hc, hpo⟩ | ⟨hc, v0, t, hi, hpo⟩ | ⟨hc, t, hi, hpo⟩ |
      ⟨hc, s', hpo, hproj, hsub⟩
    · simp only [pollSlots, hpo] at h
      obtain ⟨s, hs, h1, h2⟩ := ih acc fs' h
      exact ⟨s, List.mem_cons_of_mem _ hs, h1, h2⟩
    · simp only [pollSlots, hpo] at h
      exact absurd h (by simp)
    · exact ⟨s0, List.mem_cons_self _ _, hc, t, hi⟩
    · simp only [pollSlots, hpo] at h
      obtain ⟨s, hs, h1, h2⟩ := ih (acc ++ [s']) fs' h
      exact ⟨s, List.mem_cons_of_mem _ hs, h1, h2⟩

theorem futErrFree_subset {l l' : List BPoll} (hsub : ∀ b ∈ l', b ∈ l)
    (h : futErrFree l = true) : futErrFree l' = true := by
  simp only [futErrFree, List.all_eq_true] at h ⊢
  exact fun b hb => h b (hsub b hb)

theorem pollSlots_errFree (fs : List Slot) :
    ∀ acc, (∀ s ∈ acc, futErrFree s.inner = true) →
    (∀ s ∈ fs, futErrFree s.inner = true) →
    ∀ x ∈ (pollSlots acc fs).2, futErrFree x.inner = true := by
  induction fs with
  | nil => intro acc ha _ x hx; exact ha x (by simpa [pollSlots] using hx)
  | cons s0 rest ih =>
    intro acc ha hf x hx
    rcases pollOne_cases s0 with ⟨hc, hpo⟩ | ⟨hc, v0, t, hi, hpo⟩ | ⟨hc, t, hi, hpo⟩ |
      ⟨hc, s', hpo, hproj, hsub⟩
    · simp only [pollSlots, hpo] at hx
      exact ih acc ha (fun y hy => hf y (List.mem_cons_of_mem _ hy)) x hx
    · simp only [pollSlots, hpo] at hx
      rcases List.mem_append.1 (by simpa using hx) with hxa | hxr
      · exact ha x hxa
      · exact hf x (List.mem_cons_of_mem _ hxr)
    · simp only [pollSlots, hpo] at hx
      rcases List.mem_append.1 (by simpa using hx) with hxa | hxr
      · exact ha x hxa
      · exact hf x (List.mem_cons_of_mem _ hxr)
    · simp only [pollSlots, hpo] at hx
      refine ih (acc ++ [s']) ?_ (fun y hy => hf y (List.mem_cons_of_mem _ hy)) x hx
      intro y hy
      rcases List.mem_append.1 hy with hya | hys
      · exact ha y hya
      · have : y = s' := by simpa using hys
        subst this
        exact futErrFree_subset hsub (hf s0 (List.mem_cons_self _ _))

theorem pollSlots_no_err (fs : List Slot) (acc : List Slot)
    (h : ∀ s ∈ fs, futErrFree s.inner = true) :
    (pollSlots acc fs).1 ≠ MfOut.errOut := by
  intro hbad
  obtain ⟨s, hs, _, t, hi⟩ :=
    pollSlots_err_source fs acc (pollSlots acc fs).2 (by rw [← hbad])
  have := h s hs
  rw [hi] at this
  simp [futErrFree] at this

theorem pollSlots_yield (fs : List Slot) :
    ∀ acc a v fs', pollSlots acc fs = (MfOut.yielded a v, fs') →
    ((acc ++ fs).map Slot.chan).Nodup →
    ∃ sy, sy ∈ fs ∧ sy.canceled = false ∧ sy.addr = a ∧
      sy.chan ∉ fs'.map Slot.chan ∧
      (∀ s, (s ∈ acc ∨ s ∈ fs) → s.canceled = false → s.chan ≠ sy.chan →
        ∃ s' ∈ fs', proj s' = proj s) := by
  induction fs with
  | nil => intro acc a v fs' h; simp [pollSlots] at h
  | cons s0 rest ih =>
    intro acc a v fs' h hnd
    rcases pollOne_cases s0 with ⟨hc, hpo⟩ | ⟨hc, v0, t, hi, hpo⟩ | ⟨hc, t, hi, hpo⟩ |
      ⟨hc, s', hpo, hproj, hsub⟩
    · simp only [pollSlots, hpo] at h
      have hnd' : ((acc ++ rest).map Slot.chan).Nodup := by
        refine List.Nodup.sublist ?_ hnd
        simp only [List.map_append]
        exact List.Sublist.append_left (by simp) _
      obtain ⟨sy, hsy, h1, h2, h3, h4⟩ := ih acc a v fs' h hnd'
      refine ⟨sy, List.mem_cons_of_mem _ hsy, h1, h2, h3, ?_⟩
      intro s hs hlive hchan
      rcases hs with hs | hs
      · exact h4 s (Or.inl hs) hlive hchan
      · rcases List.mem_cons.1 hs with rfl | hs
        · rw [hlive] at hc
          exact absurd hc (by simp)
        · exact h4 s (Or.inr hs) hlive hchan
    · simp only [pollSlots, hpo] at h
      have ha : s0.addr = a := by
        have h1 := congrArg Prod.fst h
        simp at h1
        exact h1.1
      have hfs' : fs' = acc ++ rest := by
        have h2 := congrArg Prod.snd h
        simpa using h2.symm
      have hmid : s0.chan ∉ (acc ++ rest).map Slot.chan := by
        have h3 : ((acc ++ s0 :: rest).map Slot.chan).Nodup := hnd
        simp only [List.map_append, List.map_cons] at h3
        rw [List.nodup_middle] at h3
        simpa [List.map_append] using (List.nodup_cons.1 h3).1
      subst hfs'
      refine ⟨s0, List.mem_cons_self _ _, hc, ha, hmid, ?_⟩
      intro s hs hlive hchan
      rcases hs with hs | hs
      · exact ⟨s, List.mem_append_left _ hs, rfl⟩
      · rcases List.mem_cons.1 hs with rfl | hs
        · exact absurd rfl hchan
        · exact ⟨s, List.mem_append_right _ hs, rfl⟩
    · simp only [pollSlots, hpo] at h
      exact absurd h (by simp)
    · simp only [pollSlots, hpo] at h
      have hch : s'.chan = s0.chan := (proj_eq_iff.1 hproj).2.1
      have hca : s'.canceled = s0.canceled := (proj_eq_iff.1 hproj).2.2
      have hnd' : (((acc ++ [s']) ++ rest).map Slot.chan).Nodup := by
        have heq : (((acc ++ [s']) ++ rest).map Slot.chan) =
            ((acc ++ s0 :: rest).map Slot.chan) := by
          simp [hch]
        rw [heq]
        exact hnd
      obtain ⟨sy, hsy, h1, h2, h3, h4⟩ := ih (acc ++ [s']) a v fs' h hnd'
      refine ⟨sy, List.mem_cons_of_mem _ hsy, h1, h2, h3, ?_⟩
      intro s hs hlive hchan
      rcases hs with hs | hs
      · exact h4 s (Or.inl (List.mem_append_left _ hs)) hlive hchan
      · rcases List.mem_cons.1 hs with rfl | hs
        · obtain ⟨s'', hs'', hp⟩ := h4 s' (Or.inl (List.mem_append_right _ (by simp)))
            (by rw [hca, hlive]) (by rw [hch]; exact hchan)
          exact ⟨s'', hs'', hp.trans hproj⟩
        · exact h4 s (Or.inr hs) hlive hchan

/-! ### The build set: invariant preservation (C6, C7) -/

theorem keysNodup_unique {β : Type} {l : List (Nat × β)} {k : Nat} {x y : β}
    (h : keysNodup l) (hx : (k, x) ∈ l) (hy : (k, y) ∈ l) : x = y := by
  have := List.inj_on_of_nodup_map (f := Prod.fst) h hx hy rfl
  exact congrArg Prod.snd this

theorem fireChan_map_chan (fs : List Slot) (id : Nat) :
    (fireChan fs id).map Slot.chan = fs.map Slot.chan := by
  induction fs with
  | nil => rfl
  | cons s rest ih =>
    simp only [fireChan, List.map_cons] at ih ⊢
    by_cases h : s.chan = id <;> simp [h, ih]

theorem keysNodup_append_singleton {β : Type} {cs : List (Nat × β)} {a : Nat} {v : β}
    (h : keysNodup cs) (ha : a ∉ cs.map Prod.fst) : keysNodup (cs ++ [(a, v)]) := by
  simp only [keysNodup, List.map_append, List.map_cons, List.map_nil]
  rw [List.nodup_append]
  refine ⟨h, List.nodup_singleton a, ?_⟩
  intro x hx hxs
  rw [List.mem_singleton] at hxs
  exact ha (hxs ▸ hx)

theorem mfErrFree_empty : MfErrFree MakeFuts.empty := by
  intro s hs
  simp [MakeFuts.empty] at hs

theorem mfInv_empty : MfInv MakeFuts.empty := by decide

theorem errFree_push {m : MakeFuts} {a : Addr} {f : List BPoll}
    (hm : MfErrFree m) (hf : futErrFree f = true) : MfErrFree (m.push a f) := by
  intro s hs
  cases hlk : lookupKey m.cancelations a with
  | some prior =>
    simp only [MakeFuts.push, hlk] at hs
    rcases List.mem_append.1 hs with hs | hs
    · simp only [fireChan, List.mem_map] at hs
      obtain ⟨s0, hs0, rfl⟩ := hs
      by_cases hch : s0.chan = prior <;> simp [hch] <;> exact hm s0 hs0
    · have : s = ⟨a, m.nextId, false, f⟩ := by simpa using hs
      subst this
      exact hf
  | none =>
    simp only [MakeFuts.push, hlk] at hs
    rcases List.mem_append.1 hs with hs | hs
    · exact hm s hs
    · have : s = ⟨a, m.nextId, false, f⟩ := by simpa using hs
      subst this
      exact hf

theorem errFree_remove {m : MakeFuts} (hm : MfErrFree m) (a : Addr) :
    MfErrFree (m.remove a) := by
  intro s hs
  cases hlk : lookupKey m.cancelations a with
  | some id0 =>
    simp only [MakeFuts.remove, hlk] at hs
    simp only [fireChan, List.mem_map] at hs
    obtain ⟨s0, hs0, rfl⟩ := hs
    by_cases hch : s0.chan = id0 <;> simp [hch] <;> exact hm s0 hs0
  | none =>
    simp only [MakeFuts.remove, hlk] at hs
    exact hm s hs

theorem errFree_poll {m : MakeFuts} (hm : MfErrFree m) :
    MfErrFree m.pollStream.2 := by
  intro s hs
  rcases hps : pollSlots [] m.futures with ⟨o, fs'⟩
  have hfs' : ∀ x ∈ fs', futErrFree x.inner = true := by
    have := pollSlots_errFree m.futures [] (by intro x hx; simp at hx) hm
    rw [hps] at this
    exact this
  cases o <;> simp only [MakeFuts.pollStream, hps] at hs <;> exact hfs' s hs

theorem mfInv_push {m : MakeFuts} (h : MfInv m) (a : Addr) (f : List BPoll) :
    MfInv (m.push a f) := by
  obtain ⟨hb1, hb2, hk, hc, h5, h6⟩ := h
  cases hlk : lookupKey m.cancelations a with
  | none =>
    have hka : a ∉ m.cancelations.map Prod.fst := lookupKey_eq_none.1 hlk
    unfold MfInv
    simp only [MakeFuts.push, hlk]
    refine ⟨?_, ?_, ?_, ?_, ?_, ?_⟩
    · intro p hp
      rcases List.mem_append.1 hp with hp | hp
      · exact Nat.lt_trans (hb1 p hp) (Nat.lt_succ_self _)
      · have : p = (a, m.nextId) := by simpa using hp
        subst this
        exact Nat.lt_succ_self _
    · intro s hs
      rcases List.mem_append.1 hs with hs | hs
      · exact Nat.lt_trans (hb2 s hs) (Nat.lt_succ_self _)
      · have : s = ⟨a, m.nextId, false, f⟩ := by simpa using hs
        subst this
        exact Nat.lt_succ_self _
    · exact keysNodup_append_singleton hk hka
    · simp only [List.map_append, List.map_cons, List.map_nil]
      rw [List.nodup_append]
      refine ⟨hc, List.nodup_singleton _, ?_⟩
      intro x hx hxs
      rw [List.mem_singleton] at hxs
      subst hxs
      obtain ⟨s0, hs0, hch⟩ := List.mem_map.1 hx
      exact absurd hch (Nat.ne_of_lt (hb2 s0 hs0))
    · intro s hs hlv
      rcases List.mem_append.1 hs with hs | hs
      · exact List.mem_append_left _ (h5 s hs hlv)
      · have : s = ⟨a, m.nextId, false, f⟩ := by simpa using hs
        subst this
        simp
    · intro p hp
      rcases List.mem_append.1 hp with hp | hp
      · obtain ⟨s0, hs0, hlv, ha, hch⟩ := h6 p hp
        exact ⟨s0, List.mem_append_left _ hs0, hlv, ha, hch⟩
      · have : p = (a, m.nextId) := by simpa using hp
        subst this
        exact ⟨⟨a, m.nextId, false, f⟩, List.mem_append_right _ (by simp), rfl, rfl, rfl⟩
  | some prior =>
    have hmem : (a, prior) ∈ m.cancelations := mem_of_lookupKey_eq_some hlk
    have hka : a ∈ m.cancelations.map Prod.fst := List.mem_map.2 ⟨(a, prior), hmem, rfl⟩
    unfold MfInv
    simp only [MakeFuts.push, hlk]
    refine ⟨?_, ?_, ?_, ?_, ?_, ?_⟩
    · intro p hp
      rcases (mem_replaceKey_iff hk hka).1 hp with ⟨hin, _⟩ | rfl
      · exact Nat.lt_trans (hb1 p hin) (Nat.lt_succ_self _)
      · exact Nat.lt_succ_self _
    · intro s hs
      rcases List.mem_append.1 hs with hs | hs
      · obtain ⟨s0, hs0, rfl⟩ := List.mem_map.1 hs
        have : (if s0.chan = prior then { s0 with canceled := true } else s0).chan = s0.chan := by
          by_cases hch : s0.chan = prior <;> simp [hch]
        rw [this]
        exact Nat.lt_trans (hb2 s0 hs0) (Nat.lt_succ_self _)
      · have : s = ⟨a, m.nextId, false, f⟩ := by simpa using hs
        subst this
        exact Nat.lt_succ_self _
    · show keysNodup (replaceKey m.cancelations a m.nextId)
      unfold keysNodup
      rw [map_fst_replaceKey hka]
      exact hk
    · simp only [List.map_append, List.map_cons, List.map_nil, fireChan_map_chan]
      rw [List.nodup_append]
      refine ⟨hc, List.nodup_singleton _, ?_⟩
      intro x hx hxs
      rw [List.mem_singleton] at hxs
      subst hxs
      obtain ⟨s0, hs0, hch⟩ := List.mem_map.1 hx
      exact absurd hch (Nat.ne_of_lt (hb2 s0 hs0))
    · intro s hs hlv
      rcases List.mem_append.1 hs with hs | hs
      · obtain ⟨s0, hs0, rfl⟩ := List.mem_map.1 hs
        by_cases hch : s0.chan = prior
        · rw [if_pos hch] at hlv ⊢
          simp at hlv
        · rw [if_neg hch] at hlv ⊢
          have hent := h5 s0 hs0 hlv
          have hne : s0.addr ≠ a := by
            intro he
            exact hch (keysNodup_unique hk (he ▸ hent) hmem)
          exact (mem_replaceKey_iff hk hka).2 (Or.inl ⟨hent, hne⟩)
      · have : s = ⟨a, m.nextId, false, f⟩ := by simpa using hs
        subst this
        exact (mem_replaceKey_iff hk hka).2 (Or.inr rfl)
    · intro p hp
      rcases (mem_replaceKey_iff hk hka).1 hp with ⟨hin, hne⟩ | rfl
      · obtain ⟨s0, hs0, hlv, haddr, hch0⟩ := h6 p hin
        obtain ⟨sp, hsp, hsplv, hspaddr, hspch⟩ := h6 (a, prior) hmem
        have hchne : s0.chan ≠ prior := by
          intro he
          have : s0 = sp := List.inj_on_of_nodup_map hc hs0 hsp (by rw [he, hspch])
          exact hne (by rw [← haddr, this, hspaddr])
        refine ⟨s0, List.mem_append_left _ ?_, ?_, haddr, hch0⟩
        · exact List.mem_map.2 ⟨s0, hs0, by simp [hchne]⟩
        · simpa [fireChan, hchne] using hlv
      · exact ⟨⟨a, m.nextId, false, f⟩, List.mem_append_right _ (by simp), rfl, rfl, rfl⟩

theorem mfInv_remove {m : MakeFuts} (h : MfInv m) (a : Addr) :
    MfInv (m.remove a) := by
  obtain ⟨hb1, hb2, hk, hc, h5, h6⟩ := h
  cases hlk : lookupKey m.cancelations a with
  | none =>
    simp only [MakeFuts.remove, hlk]
    exact ⟨hb1, hb2, hk, hc, h5, h6⟩
  | some id0 =>
    have hmem : (a, id0) ∈ m.cancelations := mem_of_lookupKey_eq_some hlk
    obtain ⟨sp, hsp, hsplv, hspaddr, hspch⟩ := h6 (a, id0) hmem
    unfold MfInv
    simp only [MakeFuts.remove, hlk]
    refine ⟨?_, ?_, ?_, ?_, ?_, ?_⟩
    · intro p hp
      exact hb1 p (swapRemoveKey_subset hp)
    · intro s hs
      obtain ⟨s0, hs0, rfl⟩ := List.mem_map.1 hs
      have : (if s0.chan = id0 then { s0 with canceled := true } else s0).chan = s0.chan := by
        by_cases hch : s0.chan = id0 <;> simp [hch]
      rw [this]
      exact hb2 s0 hs0
    · exact keysNodup_swapRemoveKey hk
    · show ((fireChan m.futures id0).map Slot.chan).Nodup
      rw [fireChan_map_chan]
      exact hc
    · intro s hs hlv
      obtain ⟨s0, hs0, rfl⟩ := List.mem_map.1 hs
      by_cases hch : s0.chan = id0
      · rw [if_pos hch] at hlv
        simp at hlv
      · rw [if_neg hch] at hlv ⊢
        have hent := h5 s0 hs0 hlv
        have hne : s0.addr ≠ a := by
          intro he
          exact hch (keysNodup_unique hk (he ▸ hent) hmem)
        exact mem_swapRemoveKey hent hne
    · intro p hp
      have hin : p ∈ m.cancelations := swapRemoveKey_subset hp
      have hne : p.1 ≠ a := by
        intro he
        have hpp : p = (p.1, p.2) := rfl
        rw [hpp, he] at hp
        exact not_mem_swapRemoveKey hk p.2 hp
      obtain ⟨s0, hs0, hlv, haddr, hch0⟩ := h6 p hin
      have hchne : s0.chan ≠ id0 := by
        intro he
        have : s0 = sp := List.inj_on_of_nodup_map hc hs0 hsp (by rw [he, hspch])
        exact hne (by rw [← haddr, this, hspaddr])
      refine ⟨s0, ?_, ?_, haddr, hch0⟩
      · exact List.mem_map.2 ⟨s0, hs0, by simp [hchne]⟩
      · simpa [fireChan, hchne] using hlv

theorem map_chan_sublist_of_pollSlots (fs fs' : List Slot) (acc : List Slot)
    (h : (pollSlots acc fs).2 = fs') :
    List.Sublist (fs'.map Slot.chan) ((acc ++ fs).map Slot.chan) := by
  have hsub := pollSlots_proj_sublist fs acc
  rw [h] at hsub
  have := hsub.map (fun p : Addr × Nat × Bool => p.2.1)
  simpa [List.map_map, Function.comp_def, proj] using this

theorem mem_proj_of_mem {fs fs' : List Slot} {acc : List Slot}
    (h : (pollSlots acc fs).2 = fs') (s' : Slot) (hs' : s' ∈ fs') :
    ∃ s, s ∈ acc ++ fs ∧ proj s = proj s' := by
  have hsub := pollSlots_proj_sublist fs acc
  rw [h] at hsub
  have := hsub.subset (List.mem_map.2 ⟨s', hs', rfl⟩)
  obtain ⟨s, hs, hp⟩ := List.mem_map.1 this
  exact ⟨s, hs, hp⟩

theorem mfInv_poll {m : MakeFuts} (h : MfInv m) (he : MfErrFree m) :
    MfInv m.pollStream.2 := by
  obtain ⟨hb1, hb2, hk, hc, h5, h6⟩ := h
  rcases hps : pollSlots [] m.futures with ⟨o, fs'⟩
  have hfs' : (pollSlots [] m.futures).2 = fs' := by rw [hps]
  have hchsub : List.Sublist (fs'.map Slot.chan) (m.futures.map Slot.chan) := by
    have := map_chan_sublist_of_pollSlots m.futures fs' [] hfs'
    simpa using this
  have hchan_nodup : (fs'.map Slot.chan).Nodup := List.Nodup.sublist hchsub hc
  have hbound : ∀ s ∈ fs', s.chan < m.nextId := by
    intro s' hs'
    obtain ⟨s, hs, hp⟩ := mem_proj_of_mem hfs' s' hs'
    rw [List.nil_append] at hs
    have := (proj_eq_iff.1 hp).2.1
    rw [← this]
    exact hb2 s hs
  cases o with
  | errOut =>
    have := pollSlots_no_err m.futures [] he
    rw [hps] at this
    exact absurd rfl this
  | notReady =>
    unfold MfInv
    simp only [MakeFuts.pollStream, hps]
    refine ⟨hb1, hbound, hk, hchan_nodup, ?_, ?_⟩
    · intro s' hs' hlv
      obtain ⟨s, hs, hp⟩ := mem_proj_of_mem hfs' s' hs'
      rw [List.nil_append] at hs
      obtain ⟨hpa, hpc, hpl⟩ := proj_eq_iff.1 hp
      have hent := h5 s hs (hpl.trans hlv)
      rw [hpa, hpc] at hent
      exact hent
    · intro p hp
      obtain ⟨s, hs, hlv, haddr, hch⟩ := h6 p hp
      obtain ⟨s', hs', hp'⟩ := pollSlots_notReady_mem m.futures [] fs' hps s hs hlv
      obtain ⟨hpa, hpc, hpl⟩ := proj_eq_iff.1 hp'
      exact ⟨s', hs', hpl.trans hlv, hpa.trans haddr, hpc.trans hch⟩
  | yielded a v =>
    obtain ⟨sy, hsy, hsylv, hsyaddr, hsynot, hsurv⟩ :=
      pollSlots_yield m.futures [] a v fs' hps (by simpa using hc)
    have hsyent : (a, sy.chan) ∈ m.cancelations := hsyaddr ▸ h5 sy hsy hsylv
    unfold MfInv
    simp only [MakeFuts.pollStream, hps]
    refine ⟨?_, hbound, keysNodup_swapRemoveKey hk, hchan_nodup, ?_, ?_⟩
    · intro p hp
      exact hb1 p (swapRemoveKey_subset hp)
    · intro s' hs' hlv
      obtain ⟨s, hs, hp⟩ := mem_proj_of_mem hfs' s' hs'
      rw [List.nil_append] at hs
      obtain ⟨hpa, hpc, hpl⟩ := proj_eq_iff.1 hp
      have hent := h5 s hs (hpl.trans hlv)
      have hne : s.addr ≠ a := by
        intro he
        have : s.chan = sy.chan := keysNodup_unique hk (he ▸ hent) hsyent
        apply hsynot
        rw [← this, hpc]
        exact List.mem_map.2 ⟨s', hs', rfl⟩
      have := mem_swapRemoveKey hent hne
      rw [hpa, hpc] at this
      exact this
    · intro p hp
      have hin : p ∈ m.cancelations := swapRemoveKey_subset hp
      have hne : p.1 ≠ a := by
        intro he
        have hpp : p = (p.1, p.2) := rfl
        rw [hpp, he] at hp
        exact not_mem_swapRemoveKey hk p.2 hp
      obtain ⟨s, hs, hlv, haddr, hch⟩ := h6 p hin
      have hchne : s.chan ≠ sy.chan := by
        intro he
        have : s = sy := List.inj_on_of_nodup_map hc hs hsy he
        exact hne (by rw [← haddr, this, hsyaddr])
      obtain ⟨s', hs', hp'⟩ := hsurv s (Or.inr hs) hlv hchne
      obtain ⟨hpa, hpc, hpl⟩ := proj_eq_iff.1 hp'
      exact ⟨s', hs', hpl.trans hlv, hpa.trans haddr, hpc.trans hch⟩

theorem liveCorrespond_of_mfInv {m : MakeFuts} (h : MfInv m) : liveCorrespond m := by
  obtain ⟨hb1, hb2, hk, hc, h5, h6⟩ := h
  have hlivemem : ∀ s : Slot, s ∈ liveSlots m ↔ (s ∈ m.futures ∧ s.canceled = false) := by
    intro s
    simp [liveSlots, List.mem_filter]
  refine ⟨?_, ?_, ?_⟩
  · have hnods : (liveSlots m).Nodup := by
      have hfut : m.futures.Nodup := List.Nodup.of_map _ hc
      exact List.Nodup.filter _ hfut
    refine List.Nodup.map_on ?_ hnods
    intro x hx y hy hxy
    have hx' := (hlivemem x).1 hx
    have hy' := (hlivemem y).1 hy
    have hex := h5 x hx'.1 hx'.2
    have hey := h5 y hy'.1 hy'.2
    have hcheq : x.chan = y.chan := keysNodup_unique hk (hxy ▸ hex) hey
    exact List.inj_on_of_nodup_map hc hx'.1 hy'.1 hcheq
  · intro s hs
    have h' := (hlivemem s).1 hs
    exact h5 s h'.1 h'.2
  · intro p hp
    obtain ⟨s, hs, hlv, ha, hch⟩ := h6 p hp
    exact ⟨s, (hlivemem s).2 ⟨hs, hlv⟩, ha, hch⟩

theorem mfInv_applyAll : ∀ (ops : List MfOp) (m : MakeFuts), MfInv m → MfErrFree m →
    opsErrFree ops = true → MfInv (m.applyAll ops) ∧ MfErrFree (m.applyAll ops) := by
  intro ops
  induction ops with
  | nil => intro m h he _; exact ⟨h, he⟩
  | cons op rest ih =>
    intro m h he hops
    simp only [opsErrFree, List.all_cons, Bool.and_eq_true] at hops
    have hstep : MfInv (m.applyOp op) ∧ MfErrFree (m.applyOp op) := by
      cases op with
      | pushOp a f => exact ⟨mfInv_push h a f, errFree_push he hops.1⟩
      | removeOp a => exact ⟨mfInv_remove h a, errFree_remove he a⟩
      | pollOp => exact ⟨mfInv_poll h he, errFree_poll he⟩
    exact ih (m.applyOp op) hstep.1 hstep.2 hops.2

/-- C6 counterexample: push a build for address 1, then remove it.  The
cancellation entry is gone, but the (canceled, not yet reaped) future is
still in the set: the claimed exact correspondence between cancellation
entries and futures in the set fails. -/
theorem c6_cex :
    ¬ strictCorrespond
      (MakeFuts.applyAll MakeFuts.empty [MfOp.pushOp 1 [], MfOp.removeOp 1]) := by
  decide

/-- C6 (amended): after any error-free sequence of operations on the build
set, the cancellation entries correspond exactly to the *live*
(not-yet-canceled) futures: at most one live build per address, every live
future has a matching entry and vice versa.  Canceled futures may linger
in the set until the next poll reaps them. -/
theorem c6_live_correspond (ops : List MfOp) (hops : opsErrFree ops = true) :
    liveCorrespond (MakeFuts.applyAll MakeFuts.empty ops) :=
  liveCorrespond_of_mfInv
    (mfInv_applyAll ops MakeFuts.empty mfInv_empty mfErrFree_empty hops).1

/-- C6 witness: overwrite a pending build, poll, then remove. -/
theorem c6_witness :
    liveCorrespond
      (MakeFuts.applyAll MakeFuts.empty
        [MfOp.pushOp 1 [BPoll.notReady], MfOp.pushOp 1 [BPoll.ready 3],
         MfOp.pollOp, MfOp.removeOp 1]) :=
  c6_live_correspond _ (by decide)

/-- C7: the cancellation channel of a build slot is polled before its inner
future, so a fired cancellation resolves `Canceled` in the same turn even
when the inner future is ready; canceled builds are never yielded, never
surface errors, and an all-canceled set polls to `NotReady` silently. -/
theorem c7_cancel_polled_first :
    (∀ s : Slot, s.canceled = true →
        MakeFuture.pollOne s = (MakeFutureOut.cancelErr, s)) ∧
    (∀ (m m' : MakeFuts) (a : Addr) (v : Svc),
        m.pollStream = (MfOut.yielded a v, m') →
        ∃ s ∈ m.futures, s.canceled = false ∧ s.addr = a) ∧
    (∀ (m m' : MakeFuts), m.pollStream = (MfOut.errOut, m') →
        ∃ s ∈ m.futures, s.canceled = false ∧ ∃ t, s.inner = BPoll.err :: t) ∧
    (∀ m : MakeFuts, (∀ s ∈ m.futures, s.canceled = true) →
        m.pollStream = (MfOut.notReady, { m with futures := [] })) := by
  refine ⟨?_, ?_, ?_, ?_⟩
  · intro s hcanc
    simp [MakeFuture.pollOne, hcanc]
  · intro m m' a v h
    rcases hps : pollSlots [] m.futures with ⟨o, fs'⟩
    cases o with
    | yielded a0 v0 =>
      simp only [MakeFuts.pollStream, hps] at h
      obtain ⟨s, hs, hlv, haddr⟩ := pollSlots_yield_src m.futures [] a0 v0 fs' hps
      have ha : a0 = a := by
        have h1 := congrArg Prod.fst h
        simp at h1
        exact h1.1
      exact ⟨s, hs, hlv, haddr.trans ha⟩
    | errOut => simp [MakeFuts.pollStream, hps] at h
    | notReady => simp [MakeFuts.pollStream, hps] at h
  · intro m m' h
    rcases hps : pollSlots [] m.futures with ⟨o, fs'⟩
    cases o with
    | yielded a0 v0 => simp [MakeFuts.pollStream, hps] at h
    | errOut => exact pollSlots_err_source m.futures [] fs' hps
    | notReady => simp [MakeFuts.pollStream, hps] at h
  · intro m hall
    have := pollSlots_all_canceled m.futures [] hall
    simp [MakeFuts.pollStream, this]

/-- C7 witness: a canceled slot with a ready inner future resolves
`Canceled` and is silently reaped by the set's poll. -/
theorem c7_witness :
    MakeFuture.pollOne ⟨5, 0, true, [BPoll.ready 9]⟩ =
      (MakeFutureOut.cancelErr, ⟨5, 0, true, [BPoll.ready 9]⟩) ∧
    MakeFuts.pollStream ⟨[⟨5, 0, true, [BPoll.ready 9]⟩], [], 1⟩ =
      (MfOut.notReady, ⟨[], [], 1⟩) := by
  refine ⟨c7_cancel_polled_first.1 _ rfl, ?_⟩
  exact c7_cancel_polled_first.2.2.2 ⟨[⟨5, 0, true, [BPoll.ready 9]⟩], [], 1⟩ (by decide)

/-! ### The buffer daemon (C9) -/

/-- C9: each daemon loop iteration polls the disconnect signal first
(consumer drop exits immediately, nothing else consumed), then channel
send-readiness (a full channel yields `NotReady` with the driver script
untouched, so upstream work is paused rather than dropped), and only then
the inner driver. -/
theorem c9_daemon_order (n : Nat) (c : DCfg) :
    (∀ t, c.disc = DiscoEv.lost :: t →
        daemonPoll (n + 1) c =
          (DaemonOut.done, { c with disc := t })) ∧
    ((c.disc = [] ∨ ∃ t, c.disc = DiscoEv.pending :: t) →
      (c.chan = [] ∨ ∃ u, c.chan = ChanEv.notReady :: u) →
      (daemonPoll (n + 1) c).1 = DaemonOut.notReady ∧
      (daemonPoll (n + 1) c).2.drv = c.drv ∧
      (daemonPoll (n + 1) c).2.sent = c.sent) ∧
    (∀ t u w, c.disc = DiscoEv.pending :: t → c.chan = ChanEv.ready :: u →
      c.drv = DrvEv.notReady :: w →
      (daemonPoll (n + 1) c).1 = DaemonOut.notReady ∧
      (daemonPoll (n + 1) c).2.drv = w) := by
  refine ⟨?_, ?_, ?_⟩
  · intro t ht
    simp [daemonPoll, daemonIter, ht]
  · rintro (hd | ⟨t, hd⟩) (hc | ⟨u, hc⟩) <;>
      simp [daemonPoll, daemonIter, daemonAfterDisc, hd, hc]
  · intro t u w hd hc hw
    simp [daemonPoll, daemonIter, daemonAfterDisc, hd, hc, hw]

/-- C9 witness: consumer drop exits; a full channel pauses the driver. -/
theorem c9_witness :
    daemonPoll 1
        { disc := [DiscoEv.lost], chan := [ChanEv.ready],
          drv := [DrvEv.change (Chg.remove 4)], sent := [] } =
      (DaemonOut.done,
       { disc := [], chan := [ChanEv.ready],
         drv := [DrvEv.change (Chg.remove 4)], sent := [] }) ∧
    (daemonPoll 1
        { disc := [DiscoEv.pending], chan := [ChanEv.notReady],
          drv := [DrvEv.change (Chg.remove 4)], sent := [] }).2.drv =
      [DrvEv.change (Chg.remove 4)] := by
  constructor
  · exact (c9_daemon_order 0 _).1 [] rfl
  · exact ((c9_daemon_order 0 _).2.1 (Or.inr ⟨[], rfl⟩) (Or.inr ⟨[], rfl⟩)).2.1

/-! ### The balance counterexample (C3) -/

/-- C3 counterexample: the resolver adds address 1 and removes it again
before its build completes (the specification's own seed scenario 3).  The
consumer observes a bare `Remove(1)`: at that prefix the count of inserts
minus removes for address 1 is −1, outside `{0, 1}`. -/
theorem c3_cex :
    (runDriver 4
        { d0 with
            state := RState.disconnected,
            connEvs := [ConnEv.ready],
            resEvs := [ResEv.ready (Update.add [(1, 0)]),
                       ResEv.ready (Update.remove [1])],
            readyEvs := [RdyEv.ready, RdyEv.ready, RdyEv.ready],
            callFuts := [[BPoll.notReady]] }).1 = [Chg.remove 1] ∧
    insCount 1 [Chg.remove 1] = 0 ∧ remCount 1 [Chg.remove 1] = 1 := by
  refine ⟨by decide, by decide, by decide⟩

/-! ### Change-stream counting helpers -/

theorem insCount_append (a : Addr) (xs ys : List Chg) :
    insCount a (xs ++ ys) = insCount a xs + insCount a ys := by
  induction xs with
  | nil => simp [insCount]
  | cons c t ih =>
    cases c <;> simp [insCount, ih] <;> omega

theorem remCount_append (a : Addr) (xs ys : List Chg) :
    remCount a (xs ++ ys) = remCount a xs + remCount a ys := by
  induction xs with
  | nil => simp [remCount]
  | cons c t ih =>
    cases c <;> simp [remCount, ih] <;> omega

theorem insCount_map_ins3 (a : Addr) (ps : List (Addr × Ep × Svc)) :
    insCount a (ps.map fun i => Chg.insert i.1 i.2.2) =
      (ps.map fun i => i.1).count a := by
  induction ps with
  | nil => rfl
  | cons p t ih =>
    by_cases h : p.1 = a <;>
      simp [insCount, ih, List.count_cons, h] <;> omega

theorem remCount_map_ins3 (a : Addr) (ps : List (Addr × Ep × Svc)) :
    remCount a (ps.map fun i => Chg.insert i.1 i.2.2) = 0 := by
  induction ps with
  | nil => rfl
  | cons p t ih => simp [remCount, ih]

theorem remCount_map_remove (a : Addr) (ps : List Addr) :
    remCount a (ps.map Chg.remove) = ps.count a := by
  induction ps with
  | nil => rfl
  | cons p t ih =>
    by_cases h : p = a <;>
      simp [remCount, ih, List.count_cons, h] <;> omega

theorem insCount_map_remove (a : Addr) (ps : List Addr) :
    insCount a (ps.map Chg.remove) = 0 := by
  induction ps with
  | nil => rfl
  | cons p t ih => simp [insCount, ih]

theorem prefix_append_cases {α : Type} {pre xs ys : List α} (h : pre <+: xs ++ ys) :
    pre <+: xs ∨ ∃ suf, pre = xs ++ suf ∧ suf <+: ys := by
  induction xs generalizing pre with
  | nil => exact Or.inr ⟨pre, rfl, by simpa using h⟩
  | cons x xs ih =>
    rw [List.cons_append, List.prefix_cons_iff] at h
    rcases h with rfl | ⟨t, rfl, ht⟩
    · exact Or.inl (by simp)
    · rcases ih ht with h | ⟨suf, rfl, hsuf⟩
      · exact Or.inl (List.cons_prefix_cons.2 ⟨rfl, h⟩)
      · exact Or.inr ⟨suf, by simp, hsuf⟩

theorem prefix_map {α β : Type} (f : α → β) :
    ∀ (l : List α) (pre : List β), pre <+: l.map f →
    ∃ ps, ps <+: l ∧ pre = ps.map f := by
  intro l
  induction l with
  | nil =>
    intro pre h
    rw [List.map_nil, List.prefix_nil] at h
    exact ⟨[], by simp, by simp [h]⟩
  | cons x xs ih =>
    intro pre h
    rw [List.map_cons, List.prefix_cons_iff] at h
    rcases h with rfl | ⟨t, rfl, ht⟩
    · exact ⟨[], by simp, rfl⟩
    · obtain ⟨ps, hps, rfl⟩ := ih t ht
      exact ⟨x :: ps, List.cons_prefix_cons.2 ⟨rfl, hps⟩, rfl⟩

theorem count_le_one_of_nodup {a : Addr} {l : List Addr} (h : l.Nodup) :
    l.count a ≤ 1 :=
  List.nodup_iff_count_le_one.1 h a

theorem count_eq_ind_of_nodup {a : Addr} {l : List Addr} (h : l.Nodup) :
    l.count a = if a ∈ l then 1 else 0 := by
  by_cases hm : a ∈ l
  · simp only [hm, if_true]
    have h1 := count_le_one_of_nodup (a := a) h
    have h2 : 0 < l.count a := List.count_pos_iff.2 hm
    omega
  · simp [hm, List.count_eq_zero.2 hm]

/-! ### Synchronous-maker rounds: draining lemmas -/

/-- Draining a set of immediately-ready builds: the driver emits one
`Insert` per slot, in order, and ends quiescent. -/
theorem drain_inserts :
    ∀ (items : List (Addr × Svc)) (ss : List Slot) (cs : List (Addr × Nat))
      (d : Discover) (f n : Nat),
    SlotsSpec items ss →
    (cs.map Prod.fst).Perm (items.map Prod.fst) →
    d.pendingRemovals = [] → d.readyEvs = [] → d.makeFutures = ⟨ss, cs, n⟩ →
    items.length + 1 ≤ f →
    runDriver f d =
      (items.map fun i => Chg.insert i.1 i.2,
       { d with makeFutures := ⟨[], [], n⟩ }, DPoll.notReady) := by
  intro items
  induction items with
  | nil =>
    intro ss cs d f n hspec hperm hpr hre hmf hf
    cases hspec
    have hcs : cs = [] := by
      have h1 : cs.map Prod.fst = [] := by
        have h2 : (cs.map Prod.fst).Perm [] := by simpa using hperm
        exact h2.eq_nil
      simpa using h1
    subst hcs
    match f, hf with
    | f + 1, _ =>
      have h1 : pollRemovals (f + 1) d = (RemPoll.notReady, d) := by
        simp [pollRemovals, hpr, hre, popBack]
      have h2 : d.makeFutures.pollStream = (MfOut.notReady, ⟨[], [], n⟩) := by
        rw [hmf]
        rfl
      have h3 : discoverPoll (f + 1) d =
          (DPoll.notReady, { d with makeFutures := ⟨[], [], n⟩ }) := by
        simp [discoverPoll, h1, h2]
      rw [runDriver, h3]
      simp
  | cons it items ih =>
    intro ss cs d f n hspec hperm hpr hre hmf hf
    cases hspec with
    | cons a v ch hrest =>
      rename_i ss0
      match f, hf with
      | f + 1, hf =>
        have h1 : pollRemovals (f + 1) d = (RemPoll.notReady, d) := by
          simp [pollRemovals, hpr, hre, popBack]
        have h2 : d.makeFutures.pollStream =
            (MfOut.yielded a v, ⟨ss0, swapRemoveKey cs a, n⟩) := by
          rw [hmf]
          rfl
        have h3 : discoverPoll (f + 1) d =
            (DPoll.change (Chg.insert a v),
             { d with makeFutures := ⟨ss0, swapRemoveKey cs a, n⟩ }) := by
          simp [discoverPoll, h1, h2]
        have hperm' : ((swapRemoveKey cs a).map Prod.fst).Perm (items.map Prod.fst) := by
          have h4 := swapRemoveKey_keys_perm cs a
          have h5 : ((cs.map Prod.fst).erase a).Perm (items.map Prod.fst) := by
            have h6 := hperm.erase a
            simpa using h6
          exact h4.trans h5
        have hlen : items.length + 1 ≤ f := by
          simp only [List.length_cons] at hf
          omega
        have ihx := ih ss0 (swapRemoveKey cs a)
          { d with makeFutures := ⟨ss0, swapRemoveKey cs a, n⟩ } f n hrest hperm' hpr hre rfl hlen
        rw [runDriver, h3]
        dsimp only
        rw [ihx]
        simp

/-- Pushing a batch of endpoints with fresh addresses and
immediately-ready build scripts. -/
theorem pushAll_fresh :
    ∀ (items : List (Addr × Ep × Svc)) (d : Discover) (fs : List Slot)
      (cs : List (Addr × Nat)) (n : Nat),
    d.makeFutures = ⟨fs, cs, n⟩ →
    d.callFuts = items.map (fun i => [BPoll.ready i.2.2]) →
    (∀ i ∈ items, i.1 ∉ cs.map Prod.fst) →
    (items.map fun i => i.1).Nodup →
    ∃ ss cs2,
      pushAll d (items.map fun i => (i.1, i.2.1)) =
        { d with makeFutures := ⟨fs ++ ss, cs ++ cs2, n + items.length⟩,
                 callFuts := [] } ∧
      SlotsSpec (items.map fun i => (i.1, i.2.2)) ss ∧
      cs2.map Prod.fst = items.map fun i => i.1 := by
  intro items
  induction items with
  | nil =>
    intro d fs cs n hmf hcf _ _
    refine ⟨[], [], ?_, SlotsSpec.nil, rfl⟩
    have hcf' : d.callFuts = [] := by simpa using hcf
    simp only [List.map_nil, pushAll, List.foldl_nil, List.append_nil,
      List.length_nil, Nat.add_zero]
    rw [← hmf, ← hcf']
  | cons i items ih =>
    intro d fs cs n hmf hcf hfresh hnd
    have hlk : lookupKey cs i.1 = none :=
      lookupKey_eq_none.2 (hfresh i (List.mem_cons_self _ _))
    have hcf1 : d.callFuts =
        [BPoll.ready i.2.2] :: items.map (fun j => [BPoll.ready j.2.2]) := by
      simpa using hcf
    have hstep : pushEndpoint d (i.1, i.2.1) =
        { d with makeFutures := ⟨fs ++ [⟨i.1, n, false, [BPoll.ready i.2.2]⟩],
                                 cs ++ [(i.1, n)], n + 1⟩,
                 callFuts := items.map fun j => [BPoll.ready j.2.2] } := by
      simp [pushEndpoint, hcf1, MakeFuts.push, hmf, hlk]
    have hnd' : (items.map fun j => j.1).Nodup := by
      simp only [List.map_cons, List.nodup_cons] at hnd
      exact hnd.2
    have hhead : i.1 ∉ items.map fun j => j.1 := by
      simp only [List.map_cons, List.nodup_cons] at hnd
      exact hnd.1
    have hfresh' : ∀ j ∈ items, j.1 ∉ (cs ++ [(i.1, n)]).map Prod.fst := by
      intro j hj
      simp only [List.map_append, List.map_cons, List.map_nil, List.mem_append,
        List.mem_singleton, not_or]
      refine ⟨hfresh j (List.mem_cons_of_mem _ hj), ?_⟩
      intro he
      exact hhead (he ▸ List.mem_map.2 ⟨j, hj, rfl⟩)
    obtain ⟨ss, cs2, hps, hspec, hkeys⟩ := ih
      { d with makeFutures := ⟨fs ++ [⟨i.1, n, false, [BPoll.ready i.2.2]⟩],
                               cs ++ [(i.1, n)], n + 1⟩,
               callFuts := items.map fun j => [BPoll.ready j.2.2] }
      (fs ++ [⟨i.1, n, false, [BPoll.ready i.2.2]⟩]) (cs ++ [(i.1, n)]) (n + 1)
      rfl rfl hfresh' hnd'
    refine ⟨⟨i.1, n, false, [BPoll.ready i.2.2]⟩ :: ss, (i.1, n) :: cs2, ?_, ?_, ?_⟩
    · have hfold : pushAll d ((i :: items).map fun j => (j.1, j.2.1)) =
          pushAll (pushEndpoint d (i.1, i.2.1)) (items.map fun j => (j.1, j.2.1)) := by
        simp [pushAll]
      rw [hfold, hstep, hps]
      have harith : n + 1 + items.length = n + (items.length + 1) := by omega
      simp only [List.append_assoc, List.singleton_append, List.length_cons, harith]
    · exact SlotsSpec.cons i.1 i.2.2 n hspec
    · simp [hkeys]

/-- One `Add` round from a quiescent driver: every endpoint is built and
inserted, in order, and the driver ends quiescent. -/
theorem addRound_run (items : List (Addr × Ep × Svc)) (d : Discover)
    (hq : Quiesce d) (hnd : (items.map fun i => i.1).Nodup) :
    ∃ d', runDriver (items.length + 2) (setRound d (Round.addR items)) =
        (items.map fun i => Chg.insert i.1 i.2.2, d', DPoll.notReady) ∧
      Quiesce d' := by
  obtain ⟨st, ae, pr, mf, ce, re, te, rye, cf, rs, dl⟩ := d
  obtain ⟨fsm, csm, nm⟩ := mf
  obtain ⟨hst, hpr, hae, hfut, hcan⟩ := hq
  dsimp only at hst hpr hae hfut hcan
  subst hst hpr hae hfut hcan
  have h_pres : pollResolution (items.length + 1 + 1)
      ⟨RState.resolving, [], [], ⟨[], [], nm⟩, [],
        [ResEv.ready (Update.add (items.map fun i => (i.1, i.2.1)))], [], [],
        items.map (fun i => [BPoll.ready i.2.2]), rs, dl⟩ =
      (ResPoll.ready (Update.add (items.map fun i => (i.1, i.2.1))),
       ⟨RState.resolving, [], [], ⟨[], [], nm⟩, [], [], [], [],
        items.map (fun i => [BPoll.ready i.2.2]), rs, dl⟩) := by
    simp [pollResolution, resIter]
  obtain ⟨ss, cs2, hps, hspec, hkeys⟩ := pushAll_fresh items
    ⟨RState.resolving, [], [], ⟨[], [], nm⟩, [], [], [], [],
      items.map (fun i => [BPoll.ready i.2.2]), rs, dl⟩
    [] [] nm rfl rfl (by intro i _; simp) hnd
  simp only [List.nil_append] at hps
  have h1 : pollRemovals (items.length + 1 + 1)
      ⟨RState.resolving, [], [], ⟨[], [], nm⟩, [],
        [ResEv.ready (Update.add (items.map fun i => (i.1, i.2.1)))], [],
        [RdyEv.ready], items.map (fun i => [BPoll.ready i.2.2]), rs, dl⟩ =
      (RemPoll.notReady,
       ⟨RState.resolving, [], [], ⟨ss, cs2, nm + items.length⟩, [], [], [], [],
        [], rs, dl⟩) := by
    simp [pollRemovals, popBack, h_pres, hps]
  have h1' : pollRemovals (items.length + 1 + 1)
      ⟨RState.resolving, [], [], ⟨ss, cs2, nm + items.length⟩, [], [], [], [],
        [], rs, dl⟩ =
      (RemPoll.notReady,
       ⟨RState.resolving, [], [], ⟨ss, cs2, nm + items.length⟩, [], [], [], [],
        [], rs, dl⟩) := by
    simp [pollRemovals, popBack]
  have hdp : discoverPoll (items.length + 1 + 1)
      ⟨RState.resolving, [], [], ⟨[], [], nm⟩, [],
        [ResEv.ready (Update.add (items.map fun i => (i.1, i.2.1)))], [],
        [RdyEv.ready], items.map (fun i => [BPoll.ready i.2.2]), rs, dl⟩ =
      discoverPoll (items.length + 1 + 1)
        ⟨RState.resolving, [], [], ⟨ss, cs2, nm + items.length⟩, [], [], [], [],
          [], rs, dl⟩ := by
    unfold discoverPoll
    rw [h1, h1']
  have hrun : runDriver (items.length + 1 + 1)
      ⟨RState.resolving, [], [], ⟨[], [], nm⟩, [],
        [ResEv.ready (Update.add (items.map fun i => (i.1, i.2.1)))], [],
        [RdyEv.ready], items.map (fun i => [BPoll.ready i.2.2]), rs, dl⟩ =
      runDriver (items.length + 1 + 1)
        ⟨RState.resolving, [], [], ⟨ss, cs2, nm + items.length⟩, [], [], [], [],
          [], rs, dl⟩ := by
    rw [runDriver]
    conv_rhs => rw [runDriver]
    rw [hdp]
  have hperm2 : (cs2.map Prod.fst).Perm
      ((items.map fun i => ((i.1 : Addr), (i.2.2 : Svc))).map Prod.fst) := by
    rw [hkeys]
    simp [List.map_map, Function.comp_def]
  have hdrain := drain_inserts (items.map fun i => (i.1, i.2.2)) ss cs2
    ⟨RState.resolving, [], [], ⟨ss, cs2, nm + items.length⟩, [], [], [], [],
      [], rs, dl⟩
    (items.length + 1 + 1) (nm + items.length) hspec hperm2 rfl rfl rfl
    (by simp only [List.length_map]; omega)
  have hout : (items.map fun i => ((i.1 : Addr), (i.2.2 : Svc))).map
      (fun i => Chg.insert i.1 i.2) = items.map fun i => Chg.insert i.1 i.2.2 := by
    rw [List.map_map]
    rfl
  refine ⟨⟨RState.resolving, [], [], ⟨[], [], nm + items.length⟩, [], [], [], [],
    [], rs, dl⟩, ?_, ⟨rfl, rfl, rfl, rfl, rfl⟩⟩
  show runDriver (items.length + 1 + 1)
      ⟨RState.resolving, [], [], ⟨[], [], nm⟩, [],
        [ResEv.ready (Update.add (items.map fun i => (i.1, i.2.1)))], [],
        [RdyEv.ready], items.map (fun i => [BPoll.ready i.2.2]), rs, dl⟩ = _
  rw [hrun, hdrain, hout]

/-- One `Remove` round from a quiescent driver: the removals are emitted
back-to-front and the driver ends quiescent. -/
theorem rmRound_run (as : List Addr) (d : Discover) (hq : Quiesce d) :
    ∃ d', runDriver (as.length + 2) (setRound d (Round.rmR as)) =
        (as.reverse.map Chg.remove, d', DPoll.notReady) ∧ Quiesce d' := by
  obtain ⟨st, ae, pr, mf, ce, re, te, rye, cf, rs, dl⟩ := d
  obtain ⟨fsm, csm, nm⟩ := mf
  obtain ⟨hst, hpr, hae, hfut, hcan⟩ := hq
  dsimp only at hst hpr hae hfut hcan
  subst hst hpr hae hfut hcan
  have h1 : pollRemovals (as.length + 1 + 1)
      ⟨RState.resolving, [], [], ⟨[], [], nm⟩, [],
        [ResEv.ready (Update.remove as)], [], [RdyEv.ready], [], rs, dl⟩ =
      pollRemovals (as.length + 1)
        ⟨RState.resolving, [], as, ⟨[], [], nm⟩, [], [], [], [], [], rs, dl⟩ := by
    simp [pollRemovals, pollResolution, resIter, popBack]
  rcases List.eq_nil_or_concat as with rfl | ⟨L, b, hab⟩
  · have h2 : pollRemovals (([] : List Addr).length + 1)
        ⟨RState.resolving, [], [], ⟨[], [], nm⟩, [], [], [], [], [], rs, dl⟩ =
        (RemPoll.notReady,
         ⟨RState.resolving, [], [], ⟨[], [], nm⟩, [], [], [], [], [], rs, dl⟩) := by
      simp [pollRemovals, popBack]
    have h3 : discoverPoll (([] : List Addr).length + 1 + 1)
        ⟨RState.resolving, [], [], ⟨[], [], nm⟩, [],
          [ResEv.ready (Update.remove [])], [], [RdyEv.ready], [], rs, dl⟩ =
        (DPoll.notReady,
         ⟨RState.resolving, [], [], ⟨[], [], nm⟩, [], [], [], [], [], rs, dl⟩) := by
      unfold discoverPoll
      rw [h1, h2]
      rfl
    refine ⟨⟨RState.resolving, [], [], ⟨[], [], nm⟩, [], [], [], [], [], rs, dl⟩,
      ?_, ⟨rfl, rfl, rfl, rfl, rfl⟩⟩
    show runDriver (([] : List Addr).length + 1 + 1)
        ⟨RState.resolving, [], [], ⟨[], [], nm⟩, [],
          [ResEv.ready (Update.remove [])], [], [RdyEv.ready], [], rs, dl⟩ = _
    rw [runDriver, h3]
    rfl
  · subst hab
    simp only [List.concat_eq_append] at h1 ⊢
    have h2 : pollRemovals ((L ++ [b]).length + 1)
        ⟨RState.resolving, [], L ++ [b], ⟨[], [], nm⟩, [], [], [], [], [], rs, dl⟩ =
        (RemPoll.ready b,
         ⟨RState.resolving, [], L, ⟨[], [], nm⟩, [], [], [], [], [], rs, dl⟩) := by
      show pollRemovals ((L ++ [b]).length - 1 + 1 + 1) _ = _
      simp [pollRemovals, popBack_concat, mfRemove_empty]
    have h3 : discoverPoll ((L ++ [b]).length + 1 + 1)
        ⟨RState.resolving, [], [], ⟨[], [], nm⟩, [],
          [ResEv.ready (Update.remove (L ++ [b]))], [], [RdyEv.ready], [], rs, dl⟩ =
        (DPoll.change (Chg.remove b),
         ⟨RState.resolving, [], L, ⟨[], [], nm⟩, [], [], [], [], [], rs, dl⟩) := by
      unfold discoverPoll
      rw [h1]
      have h2' : pollRemovals ((L ++ [b]).length + 1)
          ⟨RState.resolving, [], L ++ [b], ⟨[], [], nm⟩, [], [], [], [], [], rs, dl⟩ =
          (RemPoll.ready b,
           ⟨RState.resolving, [], L, ⟨[], [], nm⟩, [], [], [], [], [], rs, dl⟩) := h2
      rw [h2']
    have hdrain := drain_removes L
      ⟨RState.resolving, [], L, ⟨[], [], nm⟩, [], [], [], [], [], rs, dl⟩
      ((L ++ [b]).length + 1) nm rfl rfl rfl (by simp)
    refine ⟨⟨RState.resolving, [], [], ⟨[], [], nm⟩, [], [], [], [], [], rs, dl⟩,
      ?_, ⟨rfl, rfl, rfl, rfl, rfl⟩⟩
    show runDriver ((L ++ [b]).length + 1 + 1)
        ⟨RState.resolving, [], [], ⟨[], [], nm⟩, [],
          [ResEv.ready (Update.remove (L ++ [b]))], [], [RdyEv.ready], [], rs, dl⟩ = _
    rw [runDriver, h3]
    dsimp only
    rw [hdrain]
    simp [List.reverse_append]

/-- Feeding well-formed rounds from a quiescent driver produces exactly
the concatenation of the per-round outputs. -/
theorem runRounds_eq : ∀ (rounds : List Round) (live : List Addr) (d : Discover),
    Quiesce d → wfRounds live rounds = true →
    runRounds d rounds = roundsOut rounds := by
  intro rounds
  induction rounds with
  | nil => intro live d _ _; rfl
  | cons r rs ih =>
    intro live d hq hwf
    cases r with
    | addR items =>
      simp only [wfRounds, Bool.and_eq_true, decide_eq_true_eq] at hwf
      obtain ⟨⟨hnd, _⟩, hwf'⟩ := hwf
      obtain ⟨d', hrun, hq'⟩ := addRound_run items d hq hnd
      show (runDriver (roundSize (Round.addR items) + 2)
          (setRound d (Round.addR items))).1 ++
        runRounds (runDriver (roundSize (Round.addR items) + 2)
          (setRound d (Round.addR items))).2.1 rs = _
      rw [show roundSize (Round.addR items) = items.length from rfl, hrun]
      dsimp only
      rw [ih _ d' hq' hwf']
      rfl
    | rmR as =>
      simp only [wfRounds, Bool.and_eq_true, decide_eq_true_eq] at hwf
      obtain ⟨_, hwf'⟩ := hwf
      obtain ⟨d', hrun, hq'⟩ := rmRound_run as d hq
      show (runDriver (roundSize (Round.rmR as) + 2)
          (setRound d (Round.rmR as))).1 ++
        runRounds (runDriver (roundSize (Round.rmR as) + 2)
          (setRound d (Round.rmR as))).2.1 rs = _
      rw [show roundSize (Round.rmR as) = as.length from rfl, hrun]
      dsimp only
      rw [ih _ d' hq' hwf']
      rfl

/-- The per-address balance of the round outputs, relative to the live
set: the balance of any prefix, shifted by the liveness indicator, stays
in `{0, 1}`. -/
theorem counts_roundsOut :
    ∀ (rounds : List Round) (live : List Addr), wfRounds live rounds = true →
    ∀ (a : Addr) (pre : List Chg), pre <+: roundsOut rounds →
    remCount a pre ≤ insCount a pre + (if a ∈ live then 1 else 0) ∧
    insCount a pre + (if a ∈ live then 1 else 0) ≤ remCount a pre + 1 := by
  intro rounds
  induction rounds with
  | nil =>
    intro live _ a pre hpre
    have hnil : pre = [] := by
      rw [show roundsOut [] = [] from rfl, List.prefix_nil] at hpre
      exact hpre
    subst hnil
    constructor <;> simp [insCount, remCount] <;> split <;> omega
  | cons r rs ih =>
    intro live hwf a pre hpre
    cases r with
    | addR items =>
      simp only [wfRounds, Bool.and_eq_true, decide_eq_true_eq] at hwf
      obtain ⟨⟨hnd, hall⟩, hwf'⟩ := hwf
      have hnotlive : ∀ i ∈ items, i.1 ∉ live := by
        intro i hi
        have := List.all_eq_true.1 hall i hi
        simpa using this
      rw [show roundsOut (Round.addR items :: rs) =
          roundOut (Round.addR items) ++ roundsOut rs from rfl] at hpre
      rcases prefix_append_cases hpre with hp | ⟨suf, rfl, hsuf⟩
      · obtain ⟨ps, hps, rfl⟩ := prefix_map _ items pre (by simpa [roundOut] using hp)
        have hin := insCount_map_ins3 a ps
        have hrm := remCount_map_ins3 a ps
        have hnd' : (ps.map fun i => i.1).Nodup :=
          List.Nodup.sublist (List.Sublist.map _ hps.sublist) hnd
        have hcnt : (ps.map fun i => i.1).count a ≤ 1 := count_le_one_of_nodup hnd'
        by_cases hl : a ∈ live
        · have hz : (ps.map fun i => i.1).count a = 0 := by
            rw [List.count_eq_zero]
            intro hmem
            obtain ⟨i, hi, rfl⟩ := List.mem_map.1 hmem
            exact hnotlive i (hps.sublist.subset hi) hl
          rw [hin, hrm, hz]
          simp [hl]
        · rw [hin, hrm]
          simp only [hl, if_false]
          omega
      · have hinsf := insCount_map_ins3 a items
        have hrmf := remCount_map_ins3 a items
        have hIH := ih (live ++ items.map fun i => i.1) hwf' a suf hsuf
        have hindrel : (if a ∈ live ++ items.map (fun i => i.1) then 1 else 0) =
            (if a ∈ live then 1 else 0) + (items.map fun i => i.1).count a := by
          have hcnt := count_eq_ind_of_nodup (a := a) hnd
          by_cases hl : a ∈ live
          · have hnm : a ∉ items.map fun i => i.1 := by
              intro hmem
              obtain ⟨i, hi, rfl⟩ := List.mem_map.1 hmem
              exact hnotlive i hi hl
            simp [hl, List.mem_append, hnm, hcnt]
          · by_cases hm : a ∈ items.map fun i => i.1 <;>
              simp [hl, hm, List.mem_append, hcnt]
        rw [show roundOut (Round.addR items) =
            items.map fun i => Chg.insert i.1 i.2.2 from rfl]
        rw [insCount_append, remCount_append, hinsf, hrmf]
        omega
    | rmR as =>
      simp only [wfRounds, Bool.and_eq_true, decide_eq_true_eq] at hwf
      obtain ⟨⟨hndas, hallas⟩, hwf'⟩ := hwf
      have hsubl : ∀ x ∈ as, x ∈ live := by
        intro x hx
        have := List.all_eq_true.1 hallas x hx
        simpa using this
      rw [show roundsOut (Round.rmR as :: rs) =
          roundOut (Round.rmR as) ++ roundsOut rs from rfl] at hpre
      rcases prefix_append_cases hpre with hp | ⟨suf, rfl, hsuf⟩
      · obtain ⟨ps, hps, rfl⟩ :=
          prefix_map _ as.reverse pre (by simpa [roundOut] using hp)
        have hrm := remCount_map_remove a ps
        have hin := insCount_map_remove a ps
        have hndps : ps.Nodup :=
          List.Nodup.sublist hps.sublist (by simpa using hndas)
        have hcnt : ps.count a ≤ 1 := count_le_one_of_nodup hndps
        by_cases hl : a ∈ live
        · rw [hin, hrm]
          simp only [hl, if_true]
          omega
        · have hz : ps.count a = 0 := by
            rw [List.count_eq_zero]
            intro hmem
            have hrev : a ∈ as.reverse := hps.sublist.subset hmem
            exact hl (hsubl a (by simpa using hrev))
          rw [hin, hrm, hz]
          simp [hl]
      · have hrmf : remCount a (roundOut (Round.rmR as)) = as.count a := by
          rw [show roundOut (Round.rmR as) = as.reverse.map Chg.remove from rfl,
            remCount_map_remove]
          simp
        have hinf : insCount a (roundOut (Round.rmR as)) = 0 :=
          insCount_map_remove a as.reverse
        have hIH := ih (live.filter fun x => !as.contains x) hwf' a suf hsuf
        have hcnt := count_eq_ind_of_nodup (a := a) hndas
        have hindrel : (if a ∈ live then 1 else 0) =
            (if a ∈ live.filter (fun x => !as.contains x) then 1 else 0) +
              as.count a := by
          by_cases hm : a ∈ as
          · have hlv : a ∈ live := hsubl a hm
            have hnf : a ∉ live.filter (fun x => !as.contains x) := by
              simp [List.mem_filter, hm]
            simp [hlv, hnf, hcnt, hm]
          · have hiff : (a ∈ live.filter fun x => !as.contains x) ↔ a ∈ live := by
              simp [List.mem_filter, hm]
            by_cases hl : a ∈ live <;> simp [hl, hiff, hcnt, hm]
        rw [remCount_append, insCount_append, hrmf, hinf]
        omega

/-- C3 (amended): under a synchronous maker (each build completes before
the next resolver update is processed) and a well-behaved resolver (no
re-`Add` of a live address, no `Remove` of a non-live address), every
prefix of the emitted change stream has, for every address, a count of
`Insert(a, _)` minus `Remove(a)` in `{0, 1}`. -/
theorem c3_prefix_balance (rounds : List Round) (d : Discover) (a : Addr)
    (pre : List Chg) (hq : Quiesce d) (hwf : wfRounds [] rounds = true)
    (hpre : pre <+: runRounds d rounds) :
    remCount a pre ≤ insCount a pre ∧ insCount a pre ≤ remCount a pre + 1 := by
  rw [runRounds_eq rounds [] d hq hwf] at hpre
  have h := counts_roundsOut rounds [] hwf a pre hpre
  simpa using h

/-- C3 (amended) witness at the round sequence `Add {1}; Remove {1}`. -/
theorem c3_witness :
    remCount 1 [Chg.insert 1 7] ≤ insCount 1 [Chg.insert 1 7] ∧
    insCount 1 [Chg.insert 1 7] ≤ remCount 1 [Chg.insert 1 7] + 1 := by
  refine c3_prefix_balance [Round.addR [(1, 0, 7)], Round.rmR [1]] d0 1
    [Chg.insert 1 7] (by decide) (by decide) ?_
  exact ⟨[Chg.remove 1], by decide⟩

end Linkerd
